import Mathlib

/-!
Verification development for the build-progress aggregation engine of the
localflux repository (package `progress`, based on buildkit's progressui).

The Go source is shallowly embedded:
* `time.Time` values are modeled as `Int` (UnixNano); `*time.Time` as `Option Int`.
* Wall-clock reads (`time.Now`, `time.Since`) are modeled by an explicit `now : Int`
  parameter threaded into `Trace.update`.
* Go maps are modeled as insertion-ordered association lists with
  replace-on-existing-key semantics (`insertA`).  The only map iterations whose
  result the source exposes are either order-independent (counts, AND-folds) or
  feed `mergeIntervals`, whose output does not depend on the iteration order
  because interval maps are keyed by their (distinct) start times; for group
  member folds the model fixes insertion order.
* Go's `slices.SortFunc` / `sort.Slice` are modeled by a stable insertion sort;
  the source's comparison keys are distinct wherever the claims depend on order.
* Go byte slices are modeled as `List Char`; `float64` seconds formatting
  (`fmt.Sprintf` with a fixed precision) is modeled by exact decimal rounding of
  the nanosecond count (`fmtFixed`).
* Pointer aliasing (several digests mapping to one `*vertex`) is modeled with an
  arena: `Trace.arena : List PVertex` and digests resolving to arena indices.
-/

namespace Progress

/-- An interval, Go `progress.Interval`: a (start, nullable stop) pair of
`*time.Time` values modeled as nanosecond `Int`s. -/
structure Interval where
  start : Option Int
  stop : Option Int
deriving DecidableEq, Repr

/-- Value of a non-null start pointer (Go dereferences `*ival.start`; callers
only do so after filtering out null starts, so the default is unreachable). -/
def startVal (i : Interval) : Int := i.start.getD 0

/-- The comparison used by `mergeIntervals`' sort: Go
`a.start.Compare(*b.start)` ascending. -/
def intervalLE (a b : Interval) : Prop := startVal a ≤ startVal b

instance : DecidableRel intervalLE := fun a b => Int.decLe (startVal a) (startVal b)

instance : IsTotal Interval intervalLE := ⟨fun a b => Int.le_total (startVal a) (startVal b)⟩

instance : IsTrans Interval intervalLE := ⟨fun _ _ _ hab hbc => le_trans hab hbc⟩

/-- The scan loop of Go `mergeIntervals` (config.go): `cur` is the current
interval, the list is the remaining sorted tail.

* a `cur` with null stop absorbs everything remaining;
* if `cur` stops strictly before `next` starts, `cur` is finalized;
* a `next` with null stop makes the merge `(cur.start, null)` and stops;
* a `next` whose stop is ≤ `cur`'s stop is dropped;
* otherwise `cur`'s stop is extended to `next`'s stop. -/
def mergeLoop : Interval → List Interval → List Interval
  | cur, [] => [cur]
  | cur, next :: rest =>
    match cur.stop with
    | none => [cur]
    | some cs =>
      if cs < startVal next then
        cur :: mergeLoop next rest
      else
        match next.stop with
        | none => [{ start := cur.start, stop := none }]
        | some ns =>
          if ns ≤ cs then mergeLoop cur rest
          else mergeLoop { start := cur.start, stop := some ns } rest

/-- Go `mergeIntervals`: drop intervals with a null start, sort by start
ascending, then scan (`mergeLoop`).  Go's `slices.SortFunc` is modeled with a
stable insertion sort. -/
def mergeIntervals (intervals : List Interval) : List Interval :=
  let filtered := intervals.filter fun i => i.start.isSome
  match filtered.insertionSort intervalLE with
  | [] => []
  | c :: rest => mergeLoop c rest

/-- Strict separation of two consecutive merged intervals: starts are ordered
and the first interval's stop is non-null and lies strictly before the second
interval's start (so the two cannot be merged or reordered). -/
def sepB (a b : Interval) : Bool :=
  decide (startVal a ≤ startVal b) &&
    match a.stop with
    | none => false
    | some s => decide (s < startVal b)

/-- Boolean chain: every pair of consecutive list elements satisfies `sepB`. -/
def chainB : List Interval → Bool
  | [] => true
  | [_] => true
  | a :: b :: l => sepB a b && chainB (b :: l)

/-- Every element of the list has a non-null start. -/
def allStartedB (l : List Interval) : Bool := l.all fun i => i.start.isSome

theorem mergeLoop_ne_nil (cur : Interval) (rest : List Interval) :
    mergeLoop cur rest ≠ [] := by
  induction rest generalizing cur with
  | nil => simp [mergeLoop]
  | cons next rest ih =>
    unfold mergeLoop
    match h : cur.stop with
    | none => simp
    | some cs =>
      simp only []
      split
      · simp
      · match hn : next.stop with
        | none => simp
        | some ns =>
          simp only []
          split
          · exact ih cur
          · exact ih _

theorem mergeLoop_head_start (cur : Interval) (rest : List Interval) :
    ∃ i l, mergeLoop cur rest = i :: l ∧ i.start = cur.start := by
  induction rest generalizing cur with
  | nil => exact ⟨cur, [], rfl, rfl⟩
  | cons next rest ih =>
    unfold mergeLoop
    match h : cur.stop with
    | none => exact ⟨cur, [], rfl, rfl⟩
    | some cs =>
      simp only []
      split
      · exact ⟨cur, mergeLoop next rest, rfl, rfl⟩
      · match hn : next.stop with
        | none => exact ⟨_, [], rfl, rfl⟩
        | some ns =>
          simp only []
          split
          · exact ih cur
          · obtain ⟨i, l, hil, his⟩ := ih { start := cur.start, stop := some ns }
            exact ⟨i, l, hil, his⟩

theorem sorted_cons_of_eq_startVal {c c' : Interval} {l : List Interval}
    (h : List.Sorted intervalLE (c :: l)) (he : startVal c' = startVal c) :
    List.Sorted intervalLE (c' :: l) := by
  rw [List.sorted_cons] at h ⊢
  exact ⟨fun b hb => by
    have := h.1 b hb
    simpa [intervalLE, he] using this, h.2⟩

theorem mergeLoop_chainB {cur : Interval} {rest : List Interval}
    (hs : List.Sorted intervalLE (cur :: rest)) :
    chainB (mergeLoop cur rest) = true := by
  induction rest generalizing cur with
  | nil => simp [mergeLoop, chainB]
  | cons next rest ih =>
    unfold mergeLoop
    match h : cur.stop with
    | none => simp [chainB]
    | some cs =>
      simp only []
      split
      · rename_i hlt
        obtain ⟨i, l, hil, his⟩ := mergeLoop_head_start next rest
        rw [hil]
        have hc : chainB (mergeLoop next rest) = true := ih hs.of_cons
        rw [hil] at hc
        have hle : intervalLE cur next := (List.sorted_cons.mp hs).1 next (by simp)
        have hsv : startVal i = startVal next := by simp [startVal, his]
        have hsep : sepB cur i = true := by
          simp only [sepB, h, hsv, Bool.and_eq_true, decide_eq_true_eq]
          exact ⟨hle, hlt⟩
        simp [chainB, hsep, hc]
      · match hn : next.stop with
        | none => simp [chainB]
        | some ns =>
          simp only []
          have hs' : List.Sorted intervalLE (cur :: rest) := by
            rw [List.sorted_cons] at hs ⊢
            exact ⟨fun b hb => hs.1 b (by simp [hb]), hs.2.of_cons⟩
          split
          · exact ih hs'
          · exact ih (sorted_cons_of_eq_startVal hs' rfl)

theorem mergeLoop_allStartedB {cur : Interval} {rest : List Interval}
    (hc : cur.start.isSome) (hr : allStartedB rest = true) :
    allStartedB (mergeLoop cur rest) = true := by
  induction rest generalizing cur with
  | nil => simpa [mergeLoop, allStartedB] using hc
  | cons next rest ih =>
    simp only [allStartedB, List.all_cons, Bool.and_eq_true] at hr
    unfold mergeLoop
    match h : cur.stop with
    | none => simpa [allStartedB] using hc
    | some cs =>
      simp only []
      split
      · have hrec := ih hr.1 hr.2
        simp only [allStartedB] at hrec ⊢
        simp only [List.all_cons, Bool.and_eq_true]
        exact ⟨hc, hrec⟩
      · match hn : next.stop with
        | none => simpa [allStartedB] using hc
        | some ns =>
          simp only []
          split
          · exact ih hc hr.2
          · exact ih hc hr.2

theorem sorted_insertionSorted_filter (xs : List Interval) :
    List.Sorted intervalLE ((xs.filter fun i => i.start.isSome).insertionSort intervalLE) :=
  List.sorted_insertionSort intervalLE _

theorem mergeIntervals_chainB (xs : List Interval) :
    chainB (mergeIntervals xs) = true := by
  rcases h : (xs.filter fun i => i.start.isSome).insertionSort intervalLE with _ | ⟨c, rest⟩
  · simp [mergeIntervals, h, chainB]
  · have hs := sorted_insertionSorted_filter xs
    rw [h] at hs
    have hres := mergeLoop_chainB hs
    simp only [mergeIntervals, h]
    exact hres

theorem mergeIntervals_allStartedB (xs : List Interval) :
    allStartedB (mergeIntervals xs) = true := by
  rcases h : (xs.filter fun i => i.start.isSome).insertionSort intervalLE with _ | ⟨c, rest⟩
  · simp [mergeIntervals, h, allStartedB]
  · have hmem : ∀ i ∈ c :: rest, i.start.isSome = true := by
      intro i hi
      rw [← h] at hi
      have hmf := (List.mem_insertionSort intervalLE).mp hi
      simpa using (List.mem_filter.mp hmf).2
    have hres := mergeLoop_allStartedB (hmem c (by simp))
      (by
        simp only [allStartedB, List.all_eq_true]
        exact fun i hi => by simpa using hmem i (List.mem_cons_of_mem c hi))
    simp only [mergeIntervals, h]
    exact hres

/-- `chainB` implies sortedness with respect to `intervalLE`. -/
theorem sorted_of_chainB : ∀ {l : List Interval}, chainB l = true → List.Sorted intervalLE l
  | [], _ => List.sorted_nil
  | [a], _ => List.sorted_singleton a
  | a :: b :: l, h => by
    simp only [chainB, Bool.and_eq_true] at h
    have htail : List.Sorted intervalLE (b :: l) := sorted_of_chainB h.2
    rw [List.sorted_cons]
    refine ⟨?_, htail⟩
    intro x hx
    have hab : intervalLE a b := by
      have := h.1
      simp only [sepB, Bool.and_eq_true, decide_eq_true_eq] at this
      exact this.1
    rcases List.mem_cons.mp hx with rfl | hx
    · exact hab
    · exact le_trans hab ((List.sorted_cons.mp htail).1 x hx)

/-- On a `chainB` list the scan is the identity. -/
theorem mergeLoop_id : ∀ {cur : Interval} {rest : List Interval},
    chainB (cur :: rest) = true → mergeLoop cur rest = cur :: rest
  | _, [], _ => rfl
  | cur, next :: rest, h => by
    simp only [chainB, Bool.and_eq_true] at h
    have hsep := h.1
    simp only [sepB, Bool.and_eq_true] at hsep
    match hcs : cur.stop with
    | none => rw [hcs] at hsep; simp at hsep
    | some cs =>
      rw [hcs] at hsep
      simp only [decide_eq_true_eq] at hsep
      unfold mergeLoop
      rw [hcs]
      simp only [if_pos hsep.2]
      rw [mergeLoop_id h.2]

theorem filter_eq_self_of_allStartedB {l : List Interval} (h : allStartedB l = true) :
    (l.filter fun i => i.start.isSome) = l := by
  rw [List.filter_eq_self]
  intro a ha
  simp only [allStartedB, List.all_eq_true] at h
  simpa using h a ha

/-- Claim C10 core: merging an already-merged list returns it unchanged. -/
theorem mergeIntervals_merged_id (xs : List Interval) :
    mergeIntervals (mergeIntervals xs) = mergeIntervals xs := by
  have hchain := mergeIntervals_chainB xs
  have hall := mergeIntervals_allStartedB xs
  rcases h : mergeIntervals xs with _ | ⟨c, rest⟩
  · simp [mergeIntervals, h]
  · rw [h] at hchain hall
    have hfilter := filter_eq_self_of_allStartedB hall
    have hsorted := (sorted_of_chainB hchain).insertionSort_eq
    simp only [mergeIntervals, hfilter, hsorted]
    exact mergeLoop_id hchain

/-- C1.  `mergeIntervals` discards null-start intervals, sorts by start and
scans left to right exactly as the spec describes; the output is start-sorted,
strictly separated (hence non-overlapping and unmergeable, i.e. minimal), every
output interval has a non-null start, and the two concrete examples of the spec
evaluate as claimed: merging [(0,5),(3,8),(10,null)] yields [(0,8),(10,null)]
and merging [(0,null),(5,7)] yields [(0,null)]. -/
theorem c1_mergeIntervals_spec :
    (∀ xs : List Interval, chainB (mergeIntervals xs) = true ∧
      allStartedB (mergeIntervals xs) = true) ∧
    mergeIntervals [⟨some 0, some 5⟩, ⟨some 3, some 8⟩, ⟨some 10, none⟩] =
      [⟨some 0, some 8⟩, ⟨some 10, none⟩] ∧
    mergeIntervals [⟨some 0, none⟩, ⟨some 5, some 7⟩] = [⟨some 0, none⟩] :=
  ⟨fun xs => ⟨mergeIntervals_chainB xs, mergeIntervals_allStartedB xs⟩, by decide, by decide⟩

/-- C10.  `mergeIntervals` is idempotent: for every interval list `xs`,
`mergeIntervals (mergeIntervals xs) = mergeIntervals xs`. -/
theorem c10_mergeIntervals_idem (xs : List Interval) :
    mergeIntervals (mergeIntervals xs) = mergeIntervals xs :=
  mergeIntervals_merged_id xs

/-! ### Log splitting and reassembly (Go `split` and the log loop of `Trace.Update`) -/

/-- The loop body of Go `split` (config.go): repeatedly find the next
separator, emit the fragment before it, continue after it; when no separator
remains, emit the rest and report `false` (incomplete); when the remaining
input is empty, report `true` (complete).  Go walks the slice with
`bytes.IndexByte`; this equivalent structural form walks it byte by byte,
building the first fragment. -/
def splitAux : List Char → List (List Char) × Bool
  | [] => ([], true)
  | c :: rest =>
    if c = '\n' then
      let r := splitAux rest
      ([] :: r.1, r.2)
    else
      match splitAux rest with
      | (f :: fs, b) => ((c :: f) :: fs, b)
      | ([], _) => ([[c]], false)

/-- Go `split`: empty input reports `false` without emitting fragments;
otherwise run the loop.  Returns the fragments passed to the callback, in
order, and the `complete` flag. -/
def split (dt : List Char) : List (List Char) × Bool :=
  if dt.isEmpty then ([], false) else splitAux dt

/-- Plain newline split (used only in proofs): all '\n'-separated segments,
including a trailing empty segment when the input ends with '\n'. -/
def splitNl : List Char → List (List Char)
  | [] => [[]]
  | c :: rest =>
    if c = '\n' then [] :: splitNl rest
    else
      match splitNl rest with
      | [] => [[c]]
      | f :: fs => (c :: f) :: fs

/-- Whether a byte stream ends with a newline. -/
def endsNl (s : List Char) : Bool := s.getLast? == some '\n'

/-- The character for a decimal digit. -/
def digitChar (n : Nat) : Char := Char.ofNat (48 + n)

def natDigitsAux : Nat → Nat → List Char → List Char
  | 0, _, acc => acc
  | fuel + 1, n, acc =>
    if n < 10 then digitChar n :: acc
    else natDigitsAux fuel (n / 10) (digitChar (n % 10) :: acc)

/-- Decimal digits of a natural number, most significant first. -/
def natDigits (n : Nat) : List Char := natDigitsAux (n + 1) n []

/-- Round `num / den` (`den > 0`) to the nearest integer, ties away from
zero. -/
def roundHalfAway (num den : Int) : Int :=
  if 0 ≤ num then (2 * num + den) / (2 * den) else -((2 * (-num) + den) / (2 * den))

/-- Decimal rendering of `ns` nanoseconds as seconds with `prec` fractional
digits: models Go's `fmt.Sprintf` fixed-precision formatting of
`ts.Seconds()` by exact decimal rounding of the nanosecond count. -/
def fmtFixed (ns : Int) (prec : Nat) : List Char :=
  let q := roundHalfAway (ns * (10 : Int) ^ prec) 1000000000
  let ip := q.natAbs / 10 ^ prec
  let fp := q.natAbs % 10 ^ prec
  let frac := natDigits fp
  let padded := List.replicate (prec - frac.length) '0' ++ frac
  (if q < 0 then ['-'] else []) ++ natDigits ip ++ '.' :: padded

/-- A freshly appended log line: Go `fmt.Appendf(nil, "%s %s", stamp, dt)` —
the timestamp text, a space, then the fragment. -/
def mkLogLine (stamp frag : List Char) : List Char := stamp ++ ' ' :: frag

/-- The callback of the log loop in Go `Trace.Update`, iterated over the
fragments of one chunk: when the previous chunk left a dangling unterminated
line (`open0`), the chunk's first fragment is appended onto the last stored
line; every other fragment starts a new stamped line.  `isFirst` models the
`i == 0` test. -/
def applyFrags (stamp : List Char) (open0 : Bool) :
    List (List Char) → List (List Char) → Bool → List (List Char)
  | logs, [], _ => logs
  | logs, f :: fs, isFirst =>
    let logs' :=
      if open0 && isFirst && !logs.isEmpty then logs.dropLast ++ [logs.getLastD [] ++ f]
      else logs ++ [mkLogLine stamp f]
    applyFrags stamp open0 logs' fs false

/-- Recover the fragment content of a stored log line by dropping the
timestamp text and the following space. -/
def stripStamp (l : List Char) : List Char := (l.dropWhile fun c => c != ' ').drop 1

/-- The string contains no space (true of every timestamp text). -/
def noSpace (s : List Char) : Bool := s.all fun c => c != ' '

example : split "abc".toList = (["abc".toList], false) := by decide
example : split "ab\ncd\n".toList = (["ab".toList, "cd".toList], true) := by decide
example : split [] = ([], false) := by decide
example : split "\n\n".toList = ([[], []], true) := by decide
example : fmtFixed 0 3 = "0.000".toList := by decide
example : fmtFixed 1234567890 2 = "1.23".toList := by decide
example : fmtFixed 12345678901 1 = "12.3".toList := by decide

/-- One chunk of the log loop of Go `Trace.Update`: split the chunk, feed the
fragments to the callback, record whether the chunk left a dangling
unterminated line (`v.logsPartial = !complete`). -/
def processLogChunk (stamp : List Char) (st : List (List Char) × Bool)
    (data : List Char) : List (List Char) × Bool :=
  let r := split data
  (applyFrags stamp st.2 st.1 r.1 true, !r.2)

theorem splitAux_fst_ne_nil {s : List Char} (h : s ≠ []) : (splitAux s).1 ≠ [] := by
  cases s with
  | nil => exact absurd rfl h
  | cons c rest =>
    unfold splitAux
    split
    · simp
    · match hr : splitAux rest with
      | (f :: fs, b) => simp
      | ([], b) => simp

theorem splitAux_cons_nl (rest : List Char) :
    splitAux ('\n' :: rest) = ([] :: (splitAux rest).1, (splitAux rest).2) := by
  conv_lhs => unfold splitAux
  simp

theorem splitAux_singleton {c : Char} (hc : c ≠ '\n') : splitAux [c] = ([[c]], false) := by
  conv_lhs => unfold splitAux
  rw [if_neg hc]
  rfl

theorem splitAux_cons_ne {c : Char} {rest : List Char} (hc : c ≠ '\n') (hr : rest ≠ []) :
    splitAux (c :: rest) =
      ((c :: (splitAux rest).1.headD []) :: (splitAux rest).1.tail, (splitAux rest).2) := by
  have hne := splitAux_fst_ne_nil hr
  conv_lhs => unfold splitAux
  rw [if_neg hc]
  rcases hsp : splitAux rest with ⟨fr, b⟩
  cases fr with
  | nil => exact absurd (by rw [hsp]) hne
  | cons f fs => simp

theorem splitAux_flag_of_nil {s : List Char} (h : (splitAux s).2 = false) : s ≠ [] := by
  intro hs
  subst hs
  simp [splitAux] at h

theorem endsNl_cons {c : Char} {rest : List Char} (h : rest ≠ []) :
    endsNl (c :: rest) = endsNl rest := by
  cases rest with
  | nil => exact absurd rfl h
  | cons x xs => simp [endsNl, List.getLast?_cons_cons]

theorem endsNl_append {t : List Char} (h : t ≠ []) (s : List Char) :
    endsNl (s ++ t) = endsNl t := by
  induction s with
  | nil => rfl
  | cons c s ih =>
    have : s ++ t ≠ [] := by simp [h]
    rw [List.cons_append, endsNl_cons this, ih]

theorem splitAux_flag_endsNl : ∀ {s : List Char}, s ≠ [] → (splitAux s).2 = endsNl s := by
  intro s
  induction s with
  | nil => intro h; exact absurd rfl h
  | cons c rest ih =>
    intro _
    by_cases hrest : rest = []
    · subst hrest
      by_cases hc : c = '\n'
      · subst hc; simp [splitAux_cons_nl, splitAux, endsNl]
      · simp [splitAux_singleton hc, endsNl]
        intro h
        exact absurd h hc
    · rw [endsNl_cons hrest]
      by_cases hc : c = '\n'
      · subst hc; rw [splitAux_cons_nl]; exact ih hrest
      · rw [splitAux_cons_ne hc hrest]; exact ih hrest

theorem headD_append {α : Type} {l : List α} (m : List α) (d : α) (h : l ≠ []) :
    (l ++ m).headD d = l.headD d := by
  cases l with
  | nil => exact absurd rfl h
  | cons a l => rfl

theorem tail_append_of_ne_nil {α : Type} {l : List α} (m : List α) (h : l ≠ []) :
    (l ++ m).tail = l.tail ++ m := by
  cases l with
  | nil => exact absurd rfl h
  | cons a l => rfl

theorem getLastD_cons_of_ne_nil {α : Type} {l : List α} (a d : α) (h : l ≠ []) :
    (a :: l).getLastD d = l.getLastD d := by
  cases l with
  | nil => exact absurd rfl h
  | cons x xs => simp [List.getLastD_cons]

theorem dropLast_cons_of_ne_nil {α : Type} {l : List α} (a : α) (h : l ≠ []) :
    (a :: l).dropLast = a :: l.dropLast := by
  cases l with
  | nil => exact absurd rfl h
  | cons x xs => rfl

/-- How Go `split` behaves on the concatenation of two byte streams: when the
first stream ended completely, the fragments concatenate; when it ended in an
unterminated fragment, that fragment and the first fragment of the second
stream fuse.  This is the heart of the chunk-boundary-independence analysis. -/
theorem splitAux_append {t : List Char} (ht : t ≠ []) : ∀ s : List Char,
    (splitAux (s ++ t)).2 = (splitAux t).2 ∧
    ((splitAux s).2 = true → (splitAux (s ++ t)).1 = (splitAux s).1 ++ (splitAux t).1) ∧
    ((splitAux s).2 = false → (splitAux (s ++ t)).1 =
      (splitAux s).1.dropLast ++
        ((splitAux s).1.getLastD [] ++ (splitAux t).1.headD []) :: (splitAux t).1.tail) := by
  intro s
  induction s with
  | nil =>
    refine ⟨rfl, fun _ => rfl, fun hf => ?_⟩
    simp [splitAux] at hf
  | cons c s' ih =>
    obtain ⟨ihflag, ihtrue, ihfalse⟩ := ih
    have hstne : s' ++ t ≠ [] := by simp [ht]
    have hfrne := splitAux_fst_ne_nil hstne
    have htfr := splitAux_fst_ne_nil ht
    by_cases hc : c = '\n'
    · subst hc
      rw [List.cons_append, splitAux_cons_nl, splitAux_cons_nl]
      refine ⟨ihflag, fun h => ?_, fun h => ?_⟩
      · simp only []
        rw [ihtrue h]
        simp
      · have hs'ne : s' ≠ [] := splitAux_flag_of_nil h
        have hs'fr := splitAux_fst_ne_nil hs'ne
        simp only []
        rw [ihfalse h, dropLast_cons_of_ne_nil _ hs'fr, getLastD_cons_of_ne_nil _ _ hs'fr]
        simp
    · by_cases hs' : s' = []
      · subst hs'
        simp only [List.cons_append, List.nil_append]
        rw [splitAux_cons_ne hc ht, splitAux_singleton hc]
        refine ⟨rfl, fun h => by simp at h, fun _ => ?_⟩
        simp
      · have hs'fr := splitAux_fst_ne_nil hs'
        rw [List.cons_append, splitAux_cons_ne hc hstne, splitAux_cons_ne hc hs']
        refine ⟨ihflag, fun h => ?_, fun h => ?_⟩
        · simp only [] at h ⊢
          rw [ihtrue h, headD_append _ _ hs'fr, tail_append_of_ne_nil _ hs'fr]
          simp
        · simp only [] at h ⊢
          rw [ihfalse h]
          rcases hd : (splitAux s').1 with _ | ⟨f, fs⟩
          · exact absurd hd hs'fr
          · cases fs with
            | nil => simp
            | cons y ys =>
              rw [dropLast_cons_of_ne_nil _ (by simp), getLastD_cons_of_ne_nil _ _ (by simp)]
              rw [headD_append _ _ (by simp), tail_append_of_ne_nil _ (by simp)]
              simp [dropLast_cons_of_ne_nil, getLastD_cons_of_ne_nil]

theorem applyFrags_not_first (stamp : List Char) (open0 : Bool) :
    ∀ (frags : List (List Char)) (logs : List (List Char)),
      applyFrags stamp open0 logs frags false = logs ++ frags.map (mkLogLine stamp) := by
  intro frags
  induction frags with
  | nil => intro logs; simp [applyFrags]
  | cons f fs ih =>
    intro logs
    unfold applyFrags
    simp only [Bool.and_false, Bool.false_and, Bool.false_eq_true, if_false, ih]
    simp

theorem applyFrags_fresh {stamp : List Char} {open0 : Bool} {logs : List (List Char)}
    (h : open0 = false ∨ logs = []) (frags : List (List Char)) :
    applyFrags stamp open0 logs frags true = logs ++ frags.map (mkLogLine stamp) := by
  cases frags with
  | nil => simp [applyFrags]
  | cons f fs =>
    unfold applyFrags
    have hcond : (open0 && true && !logs.isEmpty) = false := by
      rcases h with h | h <;> simp [h]
    rw [hcond]
    simp only [Bool.false_eq_true, if_false, applyFrags_not_first]
    simp

theorem applyFrags_continue (stamp : List Char) (init : List (List Char))
    (last f : List Char) (fs : List (List Char)) :
    applyFrags stamp true (init ++ [last]) (f :: fs) true =
      (init ++ [last ++ f]) ++ fs.map (mkLogLine stamp) := by
  unfold applyFrags
  have hcond : (true && true && !(init ++ [last]).isEmpty) = true := by simp
  rw [hcond]
  simp only [if_true, applyFrags_not_first]
  simp

theorem stripStamp_of_noSpace {pre : List Char} (h : noSpace pre = true) (c : List Char) :
    stripStamp (pre ++ ' ' :: c) = c := by
  induction pre with
  | nil => simp [stripStamp, List.dropWhile]
  | cons p ps ih =>
    simp only [noSpace, List.all_cons, Bool.and_eq_true] at h
    simp only [stripStamp, List.cons_append, List.dropWhile] at ih ⊢
    rw [h.1]
    exact ih (by simp [noSpace, h.2])

theorem map_strip_mkLogLine {stamp : List Char} (h : noSpace stamp = true)
    (fs : List (List Char)) :
    (fs.map (mkLogLine stamp)).map stripStamp = fs := by
  induction fs with
  | nil => rfl
  | cons f fs ih => simp only [List.map_cons, ih, stripStamp_of_noSpace h, mkLogLine]

/-- Invariant tying a vertex's log state (stored lines, dangling-line flag) to
the byte stream consumed so far: stripping the timestamp of each stored line
recovers exactly the fragments of the whole stream, the flag records an
unterminated trailing line, and every stored line is a space-free timestamp, a
space, then content. -/
def LogsMatch (st : List (List Char) × Bool) (s : List Char) : Prop :=
  st.1.map stripStamp = (split s).1 ∧
  st.2 = (!s.isEmpty && !endsNl s) ∧
  ∀ l ∈ st.1, ∃ pre c, noSpace pre = true ∧ l = pre ++ ' ' :: c

theorem logsMatch_step {st : List (List Char) × Bool} {s : List Char}
    (hm : LogsMatch st s) {stamp data : List Char} (hd : data ≠ [])
    (hstamp : noSpace stamp = true) :
    LogsMatch (processLogChunk stamp st data) (s ++ data) := by
  obtain ⟨hlines, hflag, hstamps⟩ := hm
  have hsdne : s ++ data ≠ [] := by simp [hd]
  have hsplitd : split data = splitAux data := by simp [split, hd]
  have hsplitsd : split (s ++ data) = splitAux (s ++ data) := by simp [split, hsdne]
  obtain ⟨hapflag, haptrue, hapfalse⟩ := splitAux_append hd s
  have hflagd := splitAux_flag_endsNl hd
  have hendssd : endsNl (s ++ data) = endsNl data := endsNl_append hd s
  refine ⟨?_, ?_, ?_⟩
  case refine_2 =>
    show (!(split data).2) = _
    rw [hsplitd, hflagd, hendssd]
    simp [hsdne]
  case refine_1 =>
    show (applyFrags stamp st.2 st.1 (split data).1 true).map stripStamp = (split (s ++ data)).1
    by_cases hs : s = []
    · subst hs
      have hlogs : st.1 = [] := by
        cases hst1 : st.1 with
        | nil => rfl
        | cons a l => rw [hst1] at hlines; simp [split] at hlines
      rw [applyFrags_fresh (Or.inr hlogs), hlogs]
      simp only [List.nil_append]
      rw [map_strip_mkLogLine hstamp]
    · have hsplits : split s = splitAux s := by simp [split, hs]
      have hflags := splitAux_flag_endsNl hs
      by_cases hopen : st.2 = true
      · -- the previous stream left a dangling line: the first fragment fuses
        have hnends : endsNl s = false := by
          rw [hflag] at hopen
          simpa [hs] using hopen
        have hsflag : (splitAux s).2 = false := by rw [hflags, hnends]
        have hfr := splitAux_fst_ne_nil hs
        have hlne : st.1 ≠ [] := by
          intro hnil
          rw [hnil] at hlines
          rw [hsplits] at hlines
          exact hfr hlines.symm
        obtain ⟨init, last, hil⟩ := (List.eq_nil_or_concat st.1).resolve_left hlne
        have hdfr := splitAux_fst_ne_nil hd
        rcases hfrd : (splitAux data).1 with _ | ⟨f, fs⟩
        · exact absurd hfrd hdfr
        · rw [hopen, hil, hsplitd, hfrd]
          rw [List.concat_eq_append, applyFrags_continue]
          obtain ⟨pre, cont, hpre, hlasteq⟩ := hstamps last (by rw [hil]; simp)
          have hstrip_last : stripStamp (last ++ f) = stripStamp last ++ f := by
            rw [hlasteq, List.append_assoc]
            show stripStamp (pre ++ ' ' :: (cont ++ f)) = stripStamp (pre ++ ' ' :: cont) ++ f
            rw [stripStamp_of_noSpace hpre, stripStamp_of_noSpace hpre]
          rw [hsplitsd, hapfalse hsflag]
          have hmapinit : init.map stripStamp = (splitAux s).1.dropLast ∧
              stripStamp last = (splitAux s).1.getLastD [] := by
            rw [hil, List.concat_eq_append] at hlines
            rw [hsplits] at hlines
            constructor
            · have := congrArg List.dropLast hlines
              simpa using this
            · have := congrArg (fun l => l.getLastD ([] : List Char)) hlines
              simpa using this
          rw [List.map_append, List.map_append, map_strip_mkLogLine hstamp]
          simp only [List.map_cons, List.map_nil]
          rw [hstrip_last, hmapinit.1, hmapinit.2]
          rw [hfrd]
          simp
      · -- the previous stream ended complete
        have hopen' : st.2 = false := by simpa using hopen
        rw [hopen']
        rw [applyFrags_fresh (Or.inl rfl)]
        have hsflag : (splitAux s).2 = true := by
          rw [hflags]
          rw [hflag] at hopen'
          simpa [hs] using hopen'
        rw [hsplitsd, haptrue hsflag]
        rw [List.map_append, map_strip_mkLogLine hstamp]
        rw [hlines, hsplits, hsplitd]
  case refine_3 =>
    intro l hl
    replace hl : l ∈ applyFrags stamp st.2 st.1 (split data).1 true := hl
    have hdfr : (split data).1 ≠ [] := by
      rw [hsplitd]
      exact splitAux_fst_ne_nil hd
    by_cases hopen : st.2 = true
    · by_cases hlnil : st.1 = []
      · rw [applyFrags_fresh (Or.inr hlnil), hlnil] at hl
        simp only [List.nil_append, List.mem_map] at hl
        obtain ⟨f, _, rfl⟩ := hl
        exact ⟨stamp, f, hstamp, rfl⟩
      · obtain ⟨init, last, hil⟩ := (List.eq_nil_or_concat st.1).resolve_left hlnil
        rcases hfrd : (split data).1 with _ | ⟨f, fs⟩
        · exact absurd hfrd hdfr
        · rw [hopen, hil, hfrd, List.concat_eq_append, applyFrags_continue] at hl
          simp only [List.mem_append, List.mem_map] at hl
          rcases hl with (hl | hl) | hl
          · exact hstamps l (by rw [hil, List.concat_eq_append]; simp [hl])
          · obtain ⟨pre, cont, hpre, hlasteq⟩ :=
              hstamps last (by rw [hil, List.concat_eq_append]; simp)
            rw [List.mem_singleton] at hl
            subst hl
            exact ⟨pre, cont ++ f, hpre, by rw [hlasteq]; simp⟩
          · obtain ⟨g, _, rfl⟩ := hl
            exact ⟨stamp, g, hstamp, rfl⟩
    · have hopen' : st.2 = false := by simpa using hopen
      rw [hopen', applyFrags_fresh (Or.inl rfl)] at hl
      rcases List.mem_append.mp hl with hl | hl
      · exact hstamps l hl
      · obtain ⟨f, _, rfl⟩ := List.mem_map.mp hl
        exact ⟨stamp, f, hstamp, rfl⟩

theorem logsMatch_chunks :
    ∀ (pairs : List (List Char × List Char)) (st : List (List Char) × Bool) (s : List Char),
      LogsMatch st s → (∀ p ∈ pairs, p.2 ≠ [] ∧ noSpace p.1 = true) →
      LogsMatch (pairs.foldl (fun acc p => processLogChunk p.1 acc p.2) st)
        (s ++ (pairs.map (fun p => p.2)).flatten) := by
  intro pairs
  induction pairs with
  | nil => intro st s hm _; simpa using hm
  | cons p ps ih =>
    intro st s hm hps
    have hp := hps p (by simp)
    have hstep := logsMatch_step hm hp.1 hp.2
    have := ih _ _ hstep (fun q hq => hps q (by simp [hq]))
    simpa [List.append_assoc] using this

theorem digitChar_ne_space {k : Nat} (h : k < 10) : (digitChar k != ' ') = true := by
  interval_cases k <;> decide

theorem natDigitsAux_noSpace : ∀ (fuel n : Nat) (acc : List Char),
    (∀ c ∈ acc, (c != ' ') = true) → ∀ c ∈ natDigitsAux fuel n acc, (c != ' ') = true := by
  intro fuel
  induction fuel with
  | zero => intro n acc hacc c hc; exact hacc c hc
  | succ fuel ih =>
    intro n acc hacc c hc
    unfold natDigitsAux at hc
    split at hc
    · rename_i hn
      rcases List.mem_cons.mp hc with rfl | hc
      · exact digitChar_ne_space hn
      · exact hacc c hc
    · refine ih _ _ (fun x hx => ?_) c hc
      rcases List.mem_cons.mp hx with rfl | hx
      · exact digitChar_ne_space (Nat.mod_lt _ (by omega))
      · exact hacc x hx

theorem natDigits_noSpace (n : Nat) : ∀ c ∈ natDigits n, (c != ' ') = true :=
  natDigitsAux_noSpace (n + 1) n [] (by simp)

/-- The timestamp text never contains a space, so `stripStamp` recovers the
line content exactly. -/
theorem fmtFixed_noSpace (ns : Int) (prec : Nat) : noSpace (fmtFixed ns prec) = true := by
  unfold fmtFixed
  simp only [noSpace, List.all_eq_true, List.mem_append, List.mem_cons]
  intro c hc
  rcases hc with (hc | hc) | hc
  · split at hc
    · rcases List.mem_singleton.mp hc with rfl; decide
    · simp at hc
  · exact natDigits_noSpace _ c hc
  · rcases hc with rfl | hc | hc
    · decide
    · have := List.eq_of_mem_replicate hc
      subst this; decide
    · exact natDigits_noSpace _ c hc

/-! ### The Trace data model (Go `Trace`, `vertex`, `vertexGroup`) -/

/-- Opaque content digest (Go `digest.Digest`). -/
abbrev Digest := String

/-- Go `pb.ProgressGroup`: id, display name, weak flag. -/
structure ProgressGroup where
  id : String
  name : String
  weak : Bool
deriving DecidableEq, Repr

/-- Go `client.Vertex` (the fields the progress engine reads).  `Inputs` is
never read by this package and is omitted. -/
structure ClientVertex where
  digest : Digest
  name : String
  started : Option Int := none
  completed : Option Int := none
  cached : Bool := false
  error : String := ""
  progressGroup : Option ProgressGroup := none
deriving DecidableEq, Repr

/-- The zero value of Go `client.Vertex`. -/
def zeroCV : ClientVertex := { digest := "", name := "" }

/-- Go `client.VertexStatus` (fields read by the engine). -/
structure VertexStatus where
  id : String
  vtx : Digest
  name : String := ""
  total : Int := 0
  current : Int := 0
  timestamp : Int := 0
  started : Option Int := none
  completed : Option Int := none
deriving DecidableEq, Repr

/-- Go `client.VertexLog`. -/
structure VertexLog where
  vtx : Digest
  data : List Char
  timestamp : Int := 0
deriving DecidableEq, Repr

/-- Go `client.VertexWarning` (fields read by the engine). -/
structure VertexWarning where
  vtx : Digest
  level : Int := 0
  short : String := ""
deriving DecidableEq, Repr

/-- Go `client.SolveStatus`: one heterogeneous update batch. -/
structure SolveStatus where
  vertexes : List ClientVertex := []
  statuses : List VertexStatus := []
  logs : List VertexLog := []
  warnings : List VertexWarning := []
deriving DecidableEq, Repr

/-- Insertion-ordered association list lookup (Go map read). -/
def lookupA {β : Type} (m : List (String × β)) (k : String) : Option β :=
  match m with
  | [] => none
  | (k', v) :: rest => if k' = k then some v else lookupA rest k

/-- Insertion-ordered association list write (Go map assignment): replace the
value of an existing key in place, else append. -/
def insertA {β : Type} (m : List (String × β)) (k : String) (v : β) : List (String × β) :=
  match m with
  | [] => [(k, v)]
  | (k', v') :: rest => if k' = k then (k, v) :: rest else (k', v') :: insertA rest k v

/-- Integer-keyed variant for the per-vertex interval maps (keyed by a start
time's UnixNano). -/
def lookupI {β : Type} (m : List (Int × β)) (k : Int) : Option β :=
  match m with
  | [] => none
  | (k', v) :: rest => if k' = k then some v else lookupI rest k

def insertI {β : Type} (m : List (Int × β)) (k : Int) (v : β) : List (Int × β) :=
  match m with
  | [] => [(k, v)]
  | (k', v') :: rest => if k' = k then (k, v) :: rest else (k', v') :: insertI rest k v

/-- Insert into a set modeled as a duplicate-free list (Go `map[K]struct{}`
assignment). -/
def insertSet (l : List Digest) (d : Digest) : List Digest :=
  if d ∈ l then l else l ++ [d]

/-- Go `progress.vertex`.  Omitted source fields, none of which any modeled
operation reads: `indent`, `index` (display text shaping), `events`,
`lastBlockTime` (wall-clock bookkeeping), `logsOffset`, `warningIdx`
(rendering offsets), `logsBuffer` (a ring buffer that is never written
anywhere in this package, so it is always nil and the `ErrorLogs` branch
reading it is dead), `jobs`/`TermCount` (display-row cache contents), and the
vt100 terminal emulator state, of which only nil-ness (`termNil`) and the
written byte count (`termBytes`) are read by the modeled code.  The field
`logsOpen` models the source's dangling-trailing-line flag (named after
`logsPartial` in Go).  `statusIDs` models `statuses`: the Go slice holds
pointers into `byID`, so the model stores the ids and resolves them through
`byID`. -/
structure PVertex where
  vtx : Option ClientVertex := none
  prev : Option ClientVertex := none
  statusIDs : List String := []
  byID : List (String × VertexStatus) := []
  logs : List (List Char) := []
  logsOpen : Bool := false
  warnings : List VertexWarning := []
  count : Nat := 0
  statusUpdates : List String := []
  termNil : Bool := true
  termBytes : Nat := 0
  intervals : List (Int × Interval) := []
  mergedIntervals : List Interval := []
  hidden : Bool := false
  jobCached : Bool := false
deriving DecidableEq, Repr

/-- Go `vertexGroup`: the group's vertex lives in the arena at index `vid`;
`subVtxs` is the member map (digest to the member's last `client.Vertex`). -/
structure GroupEntry where
  vid : Nat
  subVtxs : List (String × ClientVertex) := []
deriving DecidableEq, Repr

/-- Go `progress.Trace`.  Shared mutable `*vertex` objects are modeled as an
arena (`arena`), with `byDigest`, `vertexes` and `groups` holding arena
indices; this models the aliasing where several digests map to one group
vertex.  `updates` models `map[digest]struct{}` as a duplicate-free list. -/
structure Trace where
  startTime : Option Int := none
  localTimeDiff : Int := 0
  arena : List PVertex := []
  vertexes : List Nat := []
  byDigest : List (String × Nat) := []
  updates : List Digest := []
  modeConsole : Bool := false
  groups : List (String × GroupEntry) := []
deriving DecidableEq, Repr

/-- Go `NewTrace`. -/
def newTrace (modeConsole : Bool) : Trace := { modeConsole := modeConsole }

def listModify {α : Type} : List α → Nat → (α → α) → List α
  | [], _, _ => []
  | a :: l, 0, f => f a :: l
  | a :: l, n + 1, f => a :: listModify l n f

/-- Dereference an arena index (a `*vertex`); out-of-range indices never occur
on reachable traces. -/
def arenaGet (t : Trace) (i : Nat) : PVertex := t.arena.getD i {}

/-- Mutate the vertex object at an arena index in place. -/
def modifyVtx (t : Trace) (i : Nat) (f : PVertex → PVertex) : Trace :=
  { t with arena := listModify t.arena i f }

theorem modifyVtx_vertexes (t : Trace) (i : Nat) (f : PVertex → PVertex) :
    (modifyVtx t i f).vertexes = t.vertexes := rfl

theorem modifyVtx_byDigest (t : Trace) (i : Nat) (f : PVertex → PVertex) :
    (modifyVtx t i f).byDigest = t.byDigest := rfl

theorem modifyVtx_groups (t : Trace) (i : Nat) (f : PVertex → PVertex) :
    (modifyVtx t i f).groups = t.groups := rfl

theorem listModify_length {α : Type} (l : List α) (n : Nat) (f : α → α) :
    (listModify l n f).length = l.length := by
  induction l generalizing n with
  | nil => rfl
  | cons a l ih =>
    cases n with
    | zero => rfl
    | succ n => simp [listModify, ih]

theorem listModify_getD_ne {α : Type} (l : List α) (n i : Nat) (f : α → α) (d : α)
    (h : i ≠ n) : (listModify l n f).getD i d = l.getD i d := by
  induction l generalizing n i with
  | nil => rfl
  | cons a l ih =>
    cases n with
    | zero =>
      cases i with
      | zero => exact absurd rfl h
      | succ i => rfl
    | succ n =>
      cases i with
      | zero => rfl
      | succ i => exact ih n i (fun he => h (by rw [he]))

theorem listModify_getD_self {α : Type} (l : List α) (n : Nat) (f : α → α) (d : α)
    (h : n < l.length) : (listModify l n f).getD n d = f (l.getD n d) := by
  induction l generalizing n with
  | nil => simp at h
  | cons a l ih =>
    cases n with
    | zero => rfl
    | succ n => exact ih n (by simpa using h)

theorem getD_append_left {α : Type} (l m : List α) (i : Nat) (d : α) (h : i < l.length) :
    (l ++ m).getD i d = l.getD i d := by
  induction l generalizing i with
  | nil => simp at h
  | cons a l ih =>
    cases i with
    | zero => rfl
    | succ i => exact ih i (by simpa using h)

theorem getD_snoc_self {α : Type} (l : List α) (x d : α) :
    (l ++ [x]).getD l.length d = x := by
  induction l with
  | nil => rfl
  | cons a l ih => simp [ih]

theorem lookupA_insertA_self {β : Type} (m : List (String × β)) (k : String) (v : β) :
    lookupA (insertA m k v) k = some v := by
  induction m with
  | nil => simp [insertA, lookupA]
  | cons p rest ih =>
    by_cases h : p.1 = k
    · simp [insertA, lookupA, h]
    · simp [insertA, lookupA, h, ih]

theorem lookupA_insertA_ne {β : Type} (m : List (String × β)) (k k' : String) (v : β)
    (h : k ≠ k') : lookupA (insertA m k v) k' = lookupA m k' := by
  induction m with
  | nil => simp [insertA, lookupA, h]
  | cons p rest ih =>
    by_cases hp : p.1 = k
    · simp [insertA, lookupA, hp, h]
    · simp only [insertA, if_neg hp, lookupA]
      by_cases hp' : p.1 = k'
      · simp [hp']
      · simp [hp', ih]

/-- Go `vertex.isStarted`: at least one merged interval. -/
def isStartedPV (pv : PVertex) : Bool := !pv.mergedIntervals.isEmpty

/-- Go `vertex.mostRecentInterval`: the last merged interval, when started. -/
def mostRecentInterval (pv : PVertex) : Option Interval :=
  if isStartedPV pv then some (pv.mergedIntervals.getLastD { start := none, stop := none })
  else none

/-- Go `vertex.isCompleted`: the most recent interval has a non-null stop. -/
def isCompletedPV (pv : PVertex) : Bool :=
  match mostRecentInterval pv with
  | some ival => ival.stop.isSome
  | none => false

/-- The timestamp text prefixed to a new log line in Go `Trace.Update`:
elapsed time since the most recent interval's start (zero if the vertex never
started), formatted with 3 decimals under 10s, 2 under 100s, else 1. -/
def logStamp (pv : PVertex) (timestamp : Int) : List Char :=
  let ts : Int :=
    match mostRecentInterval pv with
    | some ival => timestamp - startVal ival
    | none => 0
  let prec : Nat := if ts < 10000000000 then 3 else if ts < 100000000000 then 2 else 1
  fmtFixed ts prec

theorem logStamp_noSpace (pv : PVertex) (timestamp : Int) :
    noSpace (logStamp pv timestamp) = true := by
  unfold logStamp
  exact fmtFixed_noSpace _ _

/-- The default member `ProgressGroup` (never used on reachable states: every
member stored in `subVtxs` carries its group annotation). -/
def zeroPG : ProgressGroup := { id := "", name := "", weak := false }

/-- State threaded through the member loop of Go `vertexGroup.refresh`. -/
structure RefreshState where
  cached : Bool
  error : String
  hidden : Bool
  intervals : List (Int × Interval)
  changed : Bool
  newlyStarted : Bool
deriving DecidableEq, Repr

/-- The member loop of Go `vertexGroup.refresh`, in member-map order:
started members record their interval (keyed by start time), flip
`newlyStarted` when the group had not started, and un-hide the group when
non-weak; `cached` is AND-folded; the first non-empty error is kept and any
member visited while an error is already recorded un-hides the group. -/
def refreshLoop (alreadyStarted : Bool) : RefreshState → List (String × ClientVertex) → RefreshState
  | st, [] => st
  | st, (_, sv) :: rest =>
    let st :=
      match sv.started with
      | some stt =>
        let newIv : Interval := { start := some stt, stop := sv.completed }
        let prevIv := (lookupI st.intervals stt).getD { start := none, stop := none }
        { st with
          changed := st.changed || (newIv != prevIv),
          newlyStarted := st.newlyStarted || !alreadyStarted,
          intervals := insertI st.intervals stt newIv,
          hidden := st.hidden && (sv.progressGroup.getD zeroPG).weak }
      | none => st
    let st := { st with cached := st.cached && sv.cached }
    let st :=
      if st.error = "" then { st with error := sv.error }
      else { st with hidden := false }
    refreshLoop alreadyStarted st rest

/-- Result of Go `vertexGroup.refresh`: the updated group vertex object plus
the three reported flags. -/
structure RefreshOut where
  pv : PVertex
  changed : Bool
  newlyStarted : Bool
  newlyRevealed : Bool
deriving DecidableEq, Repr

/-- Go `vertexGroup.refresh`: recompute the synthetic group vertex from all
members.  `newVtx` starts as a copy of the current group vertex with `Cached`
forced true; after the member loop the cached/error comparisons and the
reveal transition set `changed`, and the merged intervals are recomputed. -/
def refreshVertex (pv : PVertex) (subs : List (String × ClientVertex)) : RefreshOut :=
  let oldV := pv.vtx.getD zeroCV
  let alreadyStarted := isStartedPV pv
  let wasHidden := pv.hidden
  let st0 : RefreshState :=
    { cached := true, error := oldV.error, hidden := pv.hidden,
      intervals := pv.intervals, changed := false, newlyStarted := false }
  let st := refreshLoop alreadyStarted st0 subs
  let changed := st.changed || (oldV.cached != st.cached) || (oldV.error != st.error)
  let newVtx := { oldV with cached := st.cached, error := st.error }
  let revealed := !st.hidden && wasHidden
  let changed := changed || revealed
  let merged := mergeIntervals (st.intervals.map fun p => p.2)
  let pv' := { pv with
    vtx := some newVtx
    hidden := st.hidden
    intervals := st.intervals
    mergedIntervals := merged }
  { pv := pv', changed := changed, newlyStarted := st.newlyStarted, newlyRevealed := revealed }

/-- Go `Trace.triggerVertexEvent`: returns without effect when the update has
a null started; otherwise compares the update with the previous snapshot
(`prev`), bumps the change counter and marks the digest updated on any
difference, and stores the new snapshot.  Go compares the `Completed`
pointers before values; the model uses value comparison, which only affects
the render-throttling `changed` flag, not any stored field. -/
def triggerVertexEvent (t : Trace) (vid : Nat) (v : ClientVertex) : Trace :=
  if v.started = none then t
  else
    let old := (arenaGet t vid).prev.getD zeroCV
    let changed :=
      (v.digest != old.digest) || (v.name != old.name) ||
      (v.started != old.started) ||
      ((v.completed != old.completed) && v.completed.isSome) ||
      (v.cached != old.cached) || (v.error != old.error)
    let t :=
      if changed then
        { modifyVtx t vid (fun pv => { pv with count := pv.count + 1 }) with
          updates := insertSet t.updates v.digest }
      else t
    modifyVtx t vid (fun pv => { pv with prev := some v })

/-- One iteration of the vertex loop of Go `Trace.Update`.  The accumulator
carries the trace and the batch's group order (`seenGroups` is membership in
that list).  Grouped vertices are routed to their group; ungrouped vertices
are created on first sight, appended to the display order on first start, and
their stored `client.Vertex`, interval map and merged intervals updated.
The `startTime` initialisation at the top of the loop is split out as
`applyVertexStartTime`. -/
def applyVertexStartTime (t : Trace) (v : ClientVertex) : Trace :=
  if t.startTime = none then { t with startTime := v.started } else t

def applyVertex (now : Int) (acc : Trace × List String) (v : ClientVertex) : Trace × List String :=
  let t := acc.1
  let order := acc.2
  let t := applyVertexStartTime t v
  match v.progressGroup with
  | some pg =>
    let t :=
      match lookupA t.groups pg.id with
      | some _ => t
      | none =>
        let gpv : PVertex :=
          { vtx := some { digest := pg.id, name := pg.name }, hidden := true,
            termNil := !t.modeConsole }
        { t with arena := t.arena ++ [gpv],
                 groups := insertA t.groups pg.id { vid := t.arena.length },
                 byDigest := insertA t.byDigest pg.id t.arena.length }
    let order := if pg.id ∈ order then order else order ++ [pg.id]
    let t :=
      match lookupA t.groups pg.id with
      | some ge =>
        { t with groups := insertA t.groups pg.id
                   { ge with subVtxs := insertA ge.subVtxs v.digest v },
                 byDigest := insertA t.byDigest v.digest ge.vid }
      | none => t
    (t, order)
  | none =>
    let prevId := lookupA t.byDigest v.digest
    let t :=
      match prevId with
      | some _ => t
      | none =>
        { t with arena := t.arena ++ [{ termNil := !t.modeConsole }],
                 byDigest := insertA t.byDigest v.digest t.arena.length }
    let vid := (lookupA t.byDigest v.digest).getD 0
    let t := triggerVertexEvent t vid v
    let prevStarted :=
      match prevId with
      | some i => isStartedPV (arenaGet t i)
      | none => false
    let t :=
      if v.started.isSome && !prevStarted then
        let t := if t.localTimeDiff = 0 then
            { t with localTimeDiff := now - (v.started.getD 0) } else t
        { t with vertexes := t.vertexes ++ [vid] }
      else t
    let t :=
      if prevId.isSome && prevStarted && v.started.isNone then t
      else modifyVtx t vid fun pv => { pv with vtx := some v }
    let t :=
      match v.started with
      | some st =>
        modifyVtx t vid fun pv =>
          let ivs := insertI pv.intervals st { start := some st, stop := v.completed }
          { pv with intervals := ivs,
                    mergedIntervals := mergeIntervals (ivs.map fun p => p.2) }
      | none => t
    let t := modifyVtx t vid fun pv => { pv with jobCached := false }
    (t, order)

/-- The part of the group loop of Go `Trace.Update` after the refresh and the
`localTimeDiff` fix: unless the group is still hidden, append it to the
display order when newly revealed, record the change and clear the row
cache. -/
def applyGroupTail (gid : String) (vid : Nat) (out : RefreshOut) (t : Trace) : Trace :=
  if out.pv.hidden then t
  else
    let t := if out.newlyRevealed then { t with vertexes := t.vertexes ++ [vid] } else t
    let t :=
      if out.changed then
        { modifyVtx t vid (fun pv => { pv with count := pv.count + 1 }) with
          updates := insertSet t.updates gid }
      else t
    modifyVtx t vid fun pv => { pv with jobCached := false }

/-- One iteration of the group loop of Go `Trace.Update`: refresh the group,
fix `localTimeDiff` on first start, then `applyGroupTail`. -/
def applyGroup (now : Int) (t : Trace) (gid : String) : Trace :=
  match lookupA t.groups gid with
  | none => t
  | some ge =>
    let out := refreshVertex (arenaGet t ge.vid) ge.subVtxs
    let t := modifyVtx t ge.vid fun _ => out.pv
    let t :=
      if out.newlyStarted && (t.localTimeDiff = 0) then
        { t with localTimeDiff :=
            now - startVal (out.pv.mergedIntervals.headD { start := none, stop := none }) }
      else t
    applyGroupTail gid ge.vid out t

/-- The default `VertexStatus` (Go's zero value; only used where the source
cannot reach it). -/
def zeroVS : VertexStatus := { id := "", vtx := "" }

/-- One iteration of the status loop of Go `Trace.Update`.  A status is
appended to the vertex's status order when it first carries a non-null
started; its stored value always follows last-write-wins through `byID`. -/
def applyStatus (t : Trace) (s : VertexStatus) : Trace :=
  match lookupA t.byDigest s.vtx with
  | none => t
  | some vid =>
    let t := modifyVtx t vid fun pv => { pv with jobCached := false }
    let prev := lookupA (arenaGet t vid).byID s.id
    let t :=
      match prev with
      | none => modifyVtx t vid fun pv => { pv with byID := insertA pv.byID s.id s }
      | some _ => t
    let t :=
      if s.started.isSome && (prev.isNone || (prev.getD zeroVS).started.isNone) then
        modifyVtx t vid fun pv => { pv with statusIDs := pv.statusIDs ++ [s.id] }
      else t
    let t := modifyVtx t vid fun pv =>
      { pv with byID := insertA pv.byID s.id s,
                statusUpdates := insertSet pv.statusUpdates s.id,
                count := pv.count + 1 }
    { t with updates := insertSet t.updates ((arenaGet t vid).vtx.getD zeroCV).digest }

/-- One iteration of the warning loop of Go `Trace.Update`. -/
def applyWarning (t : Trace) (w : VertexWarning) : Trace :=
  match lookupA t.byDigest w.vtx with
  | none => t
  | some vid =>
    modifyVtx t vid fun pv => { pv with warnings := pv.warnings ++ [w], count := pv.count + 1 }

/-- One iteration of the log loop of Go `Trace.Update`: count terminal bytes
when a terminal exists (the vt100 writes themselves are external), then split
the chunk and append/extend log lines with the timestamp text, recording
whether the chunk left a dangling unterminated line. -/
def applyLog (t : Trace) (l : VertexLog) : Trace :=
  match lookupA t.byDigest l.vtx with
  | none => t
  | some vid =>
    let t := modifyVtx t vid fun pv => { pv with jobCached := false }
    let t := modifyVtx t vid fun pv =>
      if pv.termNil then pv else { pv with termBytes := pv.termBytes + l.data.length }
    let pv := arenaGet t vid
    let stamp := logStamp pv l.timestamp
    let r := processLogChunk stamp (pv.logs, pv.logsOpen) l.data
    let t := modifyVtx t vid fun pv2 =>
      { pv2 with logs := r.1, logsOpen := r.2, count := pv2.count + 1 }
    { t with updates := insertSet t.updates ((arenaGet t vid).vtx.getD zeroCV).digest }

/-- Go `Trace.Update`: apply one batch — vertices first, then the touched
groups in first-seen order, then statuses, then warnings, then logs.
`now` models `time.Now`; `termWidth` is only used by the unmodeled vt100
resizing and is kept for signature fidelity. -/
def Trace.update (t : Trace) (s : SolveStatus) (now termWidth : Int) : Trace :=
  let p := s.vertexes.foldl (applyVertex now) (t, [])
  let t1 := p.2.foldl (applyGroup now) p.1
  let t2 := s.statuses.foldl applyStatus t1
  let t3 := s.warnings.foldl applyWarning t2
  s.logs.foldl applyLog t3

/-- `context.Canceled.Error()`. -/
def canceledSentinel : String := "context canceled"

/-- The filter of Go `Trace.ErrorLogs`: a non-empty error that does not end
with the cancellation sentinel. -/
def reportable (pv : PVertex) : Bool :=
  let cv := pv.vtx.getD zeroCV
  (cv.error != "") && !(canceledSentinel.toList.isSuffixOf cv.error.toList)

/-- One vertex's section in Go `Trace.ErrorLogs`: a `------` line, the
` > name:` line, each stored log line followed by a newline, and a closing
`------` line.  (The `logsBuffer` loop is dead code: that ring buffer is
never written anywhere in this repository.) -/
def sectionOf (pv : PVertex) : List Char :=
  let cv := pv.vtx.getD zeroCV
  "------\n".toList ++ " > ".toList ++ cv.name.toList ++ ":\n".toList ++
    (pv.logs.map fun l => l ++ ['\n']).flatten ++ "------\n".toList

/-- The loop of Go `Trace.ErrorLogs` over the display order. -/
def errorLogsList (t : Trace) : List Nat → List Char
  | [] => []
  | i :: rest =>
    (if reportable (arenaGet t i) then sectionOf (arenaGet t i) else []) ++ errorLogsList t rest

/-- Go `Trace.ErrorLogs`. -/
def Trace.errorLogs (t : Trace) : List Char := errorLogsList t t.vertexes

/-- The counting part of Go `DisplayInfo`. -/
structure DisplayCounts where
  countTotal : Int
  countCompleted : Int
deriving DecidableEq, Repr

/-- The count computation of Go `Trace.DisplayInfo` (config.go lines 317-332):
`CountTotal` starts at the number of digest keys and is decremented once per
key whose vertex carries a progress-group annotation or is hidden;
`CountCompleted` counts the completed vertices among the remaining keys.  The
display-row (`Jobs`) projection of `DisplayInfo` is not modeled: no claim
reads it and it does not feed back into the counts. -/
def Trace.displayInfo (t : Trace) : DisplayCounts :=
  t.byDigest.foldl
    (fun acc p =>
      let v := arenaGet t p.2
      if (v.vtx.getD zeroCV).progressGroup.isSome || v.hidden then
        { acc with countTotal := acc.countTotal - 1 }
      else if isCompletedPV v then
        { acc with countCompleted := acc.countCompleted + 1 }
      else acc)
    { countTotal := (t.byDigest.length : Int), countCompleted := 0 }

/-! ### Step-invariants of `Trace.update`: display order is append-only and a
revealed vertex never re-hides. -/

/-- `RR t t'`: going from `t` to `t'`, the display order list only grows at
the tail, the arena only grows, and no existing vertex object's `hidden` flag
is raised back to `true`. -/
def RR (t t' : Trace) : Prop :=
  (∃ tail, t'.vertexes = t.vertexes ++ tail) ∧
  t.arena.length ≤ t'.arena.length ∧
  (∀ i, i < t.arena.length → (arenaGet t i).hidden = false → (arenaGet t' i).hidden = false)

theorem RR_refl (t : Trace) : RR t t :=
  ⟨⟨[], by simp⟩, le_refl _, fun _ _ h => h⟩

theorem RR_trans {a b c : Trace} (h1 : RR a b) (h2 : RR b c) : RR a c := by
  obtain ⟨⟨tl1, hv1⟩, hl1, hh1⟩ := h1
  obtain ⟨⟨tl2, hv2⟩, hl2, hh2⟩ := h2
  refine ⟨⟨tl1 ++ tl2, by rw [hv2, hv1, List.append_assoc]⟩, le_trans hl1 hl2, ?_⟩
  intro i hi hh
  exact hh2 i (lt_of_lt_of_le hi hl1) (hh1 i hi hh)

theorem RR_of_same (t t' : Trace) (ha : t'.arena = t.arena) (hv : t'.vertexes = t.vertexes) :
    RR t t' :=
  ⟨⟨[], by simp [hv]⟩, by rw [ha], fun i _ h => by rw [arenaGet, ha]; exact h⟩

theorem RR_of_append (t t' : Trace) (la : List PVertex) (lv : List Nat)
    (ha : t'.arena = t.arena ++ la) (hv : t'.vertexes = t.vertexes ++ lv) : RR t t' := by
  refine ⟨⟨lv, hv⟩, by simp [ha], ?_⟩
  intro i hi hh
  rw [arenaGet, ha, getD_append_left _ _ _ _ hi]
  exact hh

theorem RR_modify (t : Trace) (i : Nat) (f : PVertex → PVertex)
    (hpres : (arenaGet t i).hidden = false → (f (arenaGet t i)).hidden = false) :
    RR t (modifyVtx t i f) := by
  refine ⟨⟨[], by simp [modifyVtx]⟩, by simp [modifyVtx, listModify_length], ?_⟩
  intro j hj hh
  by_cases hji : j = i
  · subst hji
    by_cases hlt : j < t.arena.length
    · rw [arenaGet, modifyVtx, listModify_getD_self _ _ _ _ hlt]
      exact hpres hh
    · exact absurd hj hlt
  · rw [arenaGet, modifyVtx, listModify_getD_ne _ _ _ _ _ hji]
    exact hh

theorem RR_triggerVertexEvent (t : Trace) (vid : Nat) (v : ClientVertex) :
    RR t (triggerVertexEvent t vid v) := by
  unfold triggerVertexEvent
  split
  · exact RR_refl t
  · refine RR_trans ?_ (RR_modify _ vid _ (fun h => h))
    split
    · exact RR_trans
        (RR_modify t vid (fun pv => { pv with count := pv.count + 1 }) (fun h => h))
        (RR_of_same _ _ rfl rfl)
    · exact RR_refl t

theorem RR_vertexes_append (t : Trace) (lv : List Nat) :
    RR t { t with vertexes := t.vertexes ++ lv } :=
  RR_of_append t _ [] lv (by simp) rfl

theorem RR_set_updates (t : Trace) (u : List Digest) : RR t { t with updates := u } :=
  RR_of_same _ _ rfl rfl

theorem RR_create (t : Trace) (pv : PVertex) (bd : List (String × Nat)) :
    RR t { t with arena := t.arena ++ [pv], byDigest := bd } :=
  RR_of_append t _ [pv] [] rfl (by simp)

theorem RR_createG (t : Trace) (pv : PVertex) (gs : List (String × GroupEntry))
    (bd : List (String × Nat)) :
    RR t { t with arena := t.arena ++ [pv], groups := gs, byDigest := bd } :=
  RR_of_append t _ [pv] [] rfl (by simp)

theorem refreshLoop_hidden_mono (alreadyStarted : Bool) :
    ∀ (subs : List (String × ClientVertex)) (st : RefreshState), st.hidden = false →
      (refreshLoop alreadyStarted st subs).hidden = false := by
  intro subs
  induction subs with
  | nil => intro st h; exact h
  | cons p rest ih =>
    intro st h
    unfold refreshLoop
    apply ih
    split
    · split <;> simp [h]
    · split <;> simp [h]

theorem refreshVertex_hidden_mono (pv : PVertex) (subs : List (String × ClientVertex))
    (h : pv.hidden = false) : (refreshVertex pv subs).pv.hidden = false := by
  unfold refreshVertex
  exact refreshLoop_hidden_mono _ subs _ h

theorem RR_applyVertex (now : Int) (acc : Trace × List String) (v : ClientVertex) :
    RR acc.1 (applyVertex now acc v).1 := by
  obtain ⟨t, order⟩ := acc
  unfold applyVertex
  simp only []
  set t0 := applyVertexStartTime t v with ht0
  have h0 : RR t t0 := by
    rw [ht0]; unfold applyVertexStartTime; split
    · exact RR_of_same _ _ rfl rfl
    · exact RR_refl t
  refine RR_trans h0 ?_
  cases hpg : v.progressGroup with
  | some pg =>
    simp only []
    rcases hg1 : lookupA t0.groups pg.id with _ | g
    · simp only [lookupA_insertA_self]
      refine RR_trans (RR_createG t0
        { vtx := some { digest := pg.id, name := pg.name }, hidden := true,
          termNil := !t0.modeConsole }
        (insertA t0.groups pg.id { vid := t0.arena.length })
        (insertA t0.byDigest pg.id t0.arena.length)) (RR_of_same _ _ rfl rfl)
    · simp only [hg1]
      exact RR_of_same _ _ rfl rfl
  | none =>
    simp only []
    refine RR_trans ?_ (RR_modify _ _ _ (fun h => h))
    cases hst : v.started with
    | none =>
      simp only [Option.isSome_none, Bool.false_and, Bool.false_eq_true, if_false,
        Option.isNone_none, Bool.and_true]
      rcases hp : lookupA t0.byDigest v.digest with _ | i
      · simp only [hp, Option.isSome_none, Bool.false_and, Bool.false_eq_true, if_false,
          lookupA_insertA_self, Option.getD_some]
        refine RR_trans (RR_create t0 { termNil := !t0.modeConsole }
          (insertA t0.byDigest v.digest t0.arena.length)) ?_
        exact RR_trans (RR_triggerVertexEvent _ t0.arena.length v)
          (RR_modify _ _ _ (fun h => h))
      · simp only [hp, Option.isSome_some, Bool.true_and, Option.getD_some]
        split
        · exact RR_triggerVertexEvent t0 i v
        · exact RR_trans (RR_triggerVertexEvent t0 i v) (RR_modify _ _ _ (fun h => h))
    | some st =>
      simp only [Option.isSome_some, Bool.true_and, Option.isNone_some, Bool.and_false,
        Bool.false_eq_true, if_false]
      refine RR_trans ?_ (RR_modify _ _ _ (fun h => h))
      refine RR_trans ?_ (RR_modify _ _ _ (fun h => h))
      rcases hp : lookupA t0.byDigest v.digest with _ | i
      · simp only [hp, lookupA_insertA_self, Option.getD_some]
        refine RR_trans (RR_create t0 { termNil := !t0.modeConsole }
          (insertA t0.byDigest v.digest t0.arena.length)) ?_
        refine RR_trans (RR_triggerVertexEvent _ t0.arena.length v) ?_
        split
        · refine RR_trans ?_ (RR_vertexes_append _ _)
          split
          · exact RR_of_same _ _ rfl rfl
          · exact RR_refl _
        · exact RR_refl _
      · simp only [hp, Option.getD_some]
        refine RR_trans (RR_triggerVertexEvent t0 i v) ?_
        split
        · refine RR_trans ?_ (RR_vertexes_append _ _)
          split
          · exact RR_of_same _ _ rfl rfl
          · exact RR_refl _
        · exact RR_refl _

theorem RR_applyGroupTail (gid : String) (vid : Nat) (out : RefreshOut) (t : Trace) :
    RR t (applyGroupTail gid vid out t) := by
  unfold applyGroupTail
  split
  · exact RR_refl t
  · refine RR_trans ?_ (RR_modify _ _ _ (fun h => h))
    refine RR_trans
      (b := if out.newlyRevealed then { t with vertexes := t.vertexes ++ [vid] } else t) ?_ ?_
    · split
      · exact RR_vertexes_append _ _
      · exact RR_refl _
    · split <;> split
      · refine RR_trans ?_ (RR_set_updates _ _)
        exact RR_modify _ _ _ (fun h => h)
      · exact RR_refl _
      · refine RR_trans ?_ (RR_set_updates _ _)
        exact RR_modify _ _ _ (fun h => h)
      · exact RR_refl _

theorem RR_applyGroup (now : Int) (t : Trace) (gid : String) :
    RR t (applyGroup now t gid) := by
  unfold applyGroup
  split
  · exact RR_refl t
  · rename_i ge hge
    refine RR_trans (RR_modify t ge.vid
      (fun _ => (refreshVertex (arenaGet t ge.vid) ge.subVtxs).pv)
      (fun h => refreshVertex_hidden_mono _ _ h)) ?_
    refine RR_trans ?_ (RR_applyGroupTail _ _ _ _)
    split
    · exact RR_of_same _ _ rfl rfl
    · exact RR_refl _

theorem RR_applyStatus (t : Trace) (s : VertexStatus) : RR t (applyStatus t s) := by
  unfold applyStatus
  split
  · exact RR_refl t
  · refine RR_trans ?_ (RR_set_updates _ _)
    refine RR_trans ?_ (RR_modify _ _ _ (fun h => h))
    split
    · refine RR_trans ?_ (RR_modify _ _ _ (fun h => h))
      split
      · refine RR_trans ?_ (RR_modify _ _ _ (fun h => h))
        exact RR_modify _ _ _ (fun h => h)
      · exact RR_modify _ _ _ (fun h => h)
    · split
      · refine RR_trans ?_ (RR_modify _ _ _ (fun h => h))
        exact RR_modify _ _ _ (fun h => h)
      · exact RR_modify _ _ _ (fun h => h)

theorem RR_applyWarning (t : Trace) (w : VertexWarning) : RR t (applyWarning t w) := by
  unfold applyWarning
  split
  · exact RR_refl t
  · exact RR_modify _ _ _ (fun h => h)

theorem RR_applyLog (t : Trace) (l : VertexLog) : RR t (applyLog t l) := by
  unfold applyLog
  split
  · exact RR_refl t
  · refine RR_trans ?_ (RR_set_updates _ _)
    refine RR_trans ?_ (RR_modify _ _ _ (fun h => h))
    refine RR_trans ?_ (RR_modify _ _ _ (fun h => by split <;> exact h))
    exact RR_modify _ _ _ (fun h => h)

theorem RR_foldl {β : Type} (f : Trace → β → Trace) (hstep : ∀ t b, RR t (f t b)) :
    ∀ (l : List β) (t : Trace), RR t (List.foldl f t l) := by
  intro l
  induction l with
  | nil => intro t; exact RR_refl t
  | cons x xs ih => intro t; exact RR_trans (hstep t x) (ih (f t x))

theorem RR_foldl_vertexes (now : Int) :
    ∀ (l : List ClientVertex) (acc : Trace × List String),
      RR acc.1 (List.foldl (applyVertex now) acc l).1 := by
  intro l
  induction l with
  | nil => intro acc; exact RR_refl acc.1
  | cons x xs ih =>
    intro acc
    exact RR_trans (RR_applyVertex now acc x) (ih (applyVertex now acc x))

/-- Across any single `Update` batch the display order is append-only, the
arena only grows, and no revealed vertex re-hides. -/
theorem RR_update (t : Trace) (s : SolveStatus) (now termWidth : Int) :
    RR t (Trace.update t s now termWidth) := by
  unfold Trace.update
  refine RR_trans ?_ (RR_foldl applyLog RR_applyLog s.logs _)
  refine RR_trans ?_ (RR_foldl applyWarning RR_applyWarning s.warnings _)
  refine RR_trans ?_ (RR_foldl applyStatus RR_applyStatus s.statuses _)
  refine RR_trans ?_ (RR_foldl (applyGroup now) (RR_applyGroup now) _ _)
  exact RR_foldl_vertexes now s.vertexes (t, [])

theorem listModify_oob {α : Type} (l : List α) (n : Nat) (f : α → α) (h : l.length ≤ n) :
    listModify l n f = l := by
  induction l generalizing n with
  | nil => rfl
  | cons a l ih =>
    cases n with
    | zero => simp at h
    | succ n => simp only [listModify]; rw [ih n (by simpa using h)]

/-- Reading any projection that a vertex mutation preserves is unaffected by
the mutation, at every index. -/
theorem arenaGet_modifyVtx {α : Type} (t : Trace) (i j : Nat) (f : PVertex → PVertex)
    (P : PVertex → α) (hf : ∀ pv, P (f pv) = P pv) :
    P (arenaGet (modifyVtx t i f) j) = P (arenaGet t j) := by
  by_cases hji : j = i
  · subst hji
    by_cases hlt : j < t.arena.length
    · rw [arenaGet, modifyVtx, listModify_getD_self _ _ _ _ hlt, hf]
      rfl
    · rw [arenaGet, modifyVtx, listModify_oob _ _ _ (by omega)]
      rfl
  · rw [arenaGet, modifyVtx, listModify_getD_ne _ _ _ _ _ hji]
    rfl

theorem arenaGet_modifyVtx_self (t : Trace) (i : Nat) (f : PVertex → PVertex)
    (h : i < t.arena.length) :
    arenaGet (modifyVtx t i f) i = f (arenaGet t i) := by
  rw [arenaGet, modifyVtx, listModify_getD_self _ _ _ _ h]
  rfl

theorem applyVertexStartTime_byDigest (t : Trace) (v : ClientVertex) :
    (applyVertexStartTime t v).byDigest = t.byDigest := by
  unfold applyVertexStartTime; split <;> rfl

theorem applyVertexStartTime_arena (t : Trace) (v : ClientVertex) :
    (applyVertexStartTime t v).arena = t.arena := by
  unfold applyVertexStartTime; split <;> rfl

theorem applyVertexStartTime_vertexes (t : Trace) (v : ClientVertex) :
    (applyVertexStartTime t v).vertexes = t.vertexes := by
  unfold applyVertexStartTime; split <;> rfl

theorem applyVertexStartTime_groups (t : Trace) (v : ClientVertex) :
    (applyVertexStartTime t v).groups = t.groups := by
  unfold applyVertexStartTime; split <;> rfl

theorem applyVertexStartTime_modeConsole (t : Trace) (v : ClientVertex) :
    (applyVertexStartTime t v).modeConsole = t.modeConsole := by
  unfold applyVertexStartTime; split <;> rfl

theorem triggerVertexEvent_vertexes (t : Trace) (i : Nat) (v : ClientVertex) :
    (triggerVertexEvent t i v).vertexes = t.vertexes := by
  unfold triggerVertexEvent
  simp only []
  split
  · rfl
  · split <;> rfl

theorem triggerVertexEvent_byDigest (t : Trace) (i : Nat) (v : ClientVertex) :
    (triggerVertexEvent t i v).byDigest = t.byDigest := by
  unfold triggerVertexEvent
  simp only []
  split
  · rfl
  · split <;> rfl

theorem triggerVertexEvent_groups (t : Trace) (i : Nat) (v : ClientVertex) :
    (triggerVertexEvent t i v).groups = t.groups := by
  unfold triggerVertexEvent
  simp only []
  split
  · rfl
  · split <;> rfl

theorem triggerVertexEvent_localTimeDiff (t : Trace) (i : Nat) (v : ClientVertex) :
    (triggerVertexEvent t i v).localTimeDiff = t.localTimeDiff := by
  unfold triggerVertexEvent
  simp only []
  split
  · rfl
  · split <;> rfl

theorem triggerVertexEvent_arena_length (t : Trace) (i : Nat) (v : ClientVertex) :
    (triggerVertexEvent t i v).arena.length = t.arena.length := by
  unfold triggerVertexEvent
  simp only []
  split
  · rfl
  · split <;> simp [modifyVtx, listModify_length]

/-- `triggerVertexEvent` only touches `count` and `prev`; every other vertex
field reads the same afterwards. -/
theorem triggerVertexEvent_arenaGet (t : Trace) (i j : Nat) (v : ClientVertex)
    {α : Type} (P : PVertex → α)
    (hP : ∀ pv c p, P { pv with count := c, prev := p } = P pv) :
    P (arenaGet (triggerVertexEvent t i v) j) = P (arenaGet t j) := by
  have hgen : ∀ pv, P { pv with prev := some v } = P pv := fun pv => by
    have := hP pv pv.count (some v)
    simpa using this
  have hcnt : ∀ pv, P { pv with count := pv.count + 1 } = P pv := fun pv => by
    have := hP pv (pv.count + 1) pv.prev
    simpa using this
  unfold triggerVertexEvent
  simp only []
  split
  · rfl
  · split
    · rw [arenaGet_modifyVtx _ _ _ _ P hgen]
      show P (arenaGet { modifyVtx t i _ with updates := _ } j) = _
      rw [show arenaGet { modifyVtx t i (fun pv => { pv with count := pv.count + 1 }) with
            updates := insertSet t.updates v.digest } j =
          arenaGet (modifyVtx t i (fun pv => { pv with count := pv.count + 1 })) j from rfl]
      rw [arenaGet_modifyVtx _ _ _ _ P hcnt]
    · rw [arenaGet_modifyVtx _ _ _ _ P hgen]

theorem applyVertex_snd_nongroup (t : Trace) (v : ClientVertex) (now : Int)
    (ord : List String) (hpg : v.progressGroup = none) :
    (applyVertex now (t, ord) v).2 = ord := by
  unfold applyVertex
  simp only [hpg]

theorem update_single_nongroup (t : Trace) (v : ClientVertex) (now w : Int)
    (hpg : v.progressGroup = none) :
    Trace.update t { vertexes := [v] } now w = (applyVertex now (t, []) v).1 := by
  unfold Trace.update
  simp only [List.foldl_cons, List.foldl_nil, applyVertex_snd_nongroup t v now [] hpg]

theorem applyVertex_fresh_started (t : Trace) (v : ClientVertex) (now : Int)
    (ord : List String) (hpg : v.progressGroup = none)
    (hlk : lookupA t.byDigest v.digest = none) (hst : v.started.isSome) :
    (applyVertex now (t, ord) v).1.vertexes = t.vertexes ++ [t.arena.length] := by
  obtain ⟨st, hstv⟩ := Option.isSome_iff_exists.mp hst
  unfold applyVertex
  simp only [hpg, applyVertexStartTime_byDigest, hlk, hstv, lookupA_insertA_self,
    Option.getD_some, Option.isSome_some, Option.isSome_none, Bool.true_and,
    Bool.not_false, Bool.false_and, Bool.and_true, Bool.false_eq_true, if_false,
    if_true, modifyVtx_vertexes, triggerVertexEvent_vertexes,
    applyVertexStartTime_vertexes, applyVertexStartTime_arena]
  split <;> simp [triggerVertexEvent_vertexes]

theorem arenaGet_applyVertexStartTime (t : Trace) (v : ClientVertex) (j : Nat) :
    arenaGet (applyVertexStartTime t v) j = arenaGet t j := by
  unfold applyVertexStartTime arenaGet
  split <;> rfl

theorem applyVertex_existing_started_vertexes (t : Trace) (v : ClientVertex) (now : Int)
    (ord : List String) (i : Nat) (hpg : v.progressGroup = none)
    (hi : lookupA t.byDigest v.digest = some i)
    (hstarted : isStartedPV (arenaGet t i) = true) :
    (applyVertex now (t, ord) v).1.vertexes = t.vertexes := by
  have htrig : isStartedPV (arenaGet (triggerVertexEvent (applyVertexStartTime t v) i v) i)
      = true := by
    rw [triggerVertexEvent_arenaGet _ _ _ _ isStartedPV (fun _ _ _ => rfl),
      arenaGet_applyVertexStartTime]
    exact hstarted
  unfold applyVertex
  simp only [hpg, applyVertexStartTime_byDigest, hi, Option.getD_some, htrig,
    Bool.not_true, Bool.and_false, Bool.false_and, Bool.false_eq_true, if_false,
    Option.isSome_some, Bool.true_and, modifyVtx_vertexes, triggerVertexEvent_vertexes,
    applyVertexStartTime_vertexes]
  split <;> simp [*, modifyVtx_vertexes, triggerVertexEvent_vertexes,
    applyVertexStartTime_vertexes]

/-- C5.  Display order stability: (1) across every `Update` batch, positions
in the display order never change — the previous list is always a prefix of
the new one; (2) the first time a fresh digest is reported with a non-null
started time (ungrouped), its vertex is appended to the display order exactly
once; (3) any further report for an already-started digest leaves the display
order entirely unchanged, so the vertex is never appended again and its
position never moves. -/
theorem c5_display_order_stable :
    (∀ (t : Trace) (s : SolveStatus) (now w : Int),
      ∃ tail, (Trace.update t s now w).vertexes = t.vertexes ++ tail) ∧
    (∀ (t : Trace) (v : ClientVertex) (now w : Int),
      v.progressGroup = none → lookupA t.byDigest v.digest = none → v.started.isSome →
      (Trace.update t { vertexes := [v] } now w).vertexes = t.vertexes ++ [t.arena.length]) ∧
    (∀ (t : Trace) (v : ClientVertex) (now w : Int) (i : Nat),
      v.progressGroup = none → lookupA t.byDigest v.digest = some i →
      isStartedPV (arenaGet t i) = true →
      (Trace.update t { vertexes := [v] } now w).vertexes = t.vertexes) := by
  refine ⟨fun t s now w => (RR_update t s now w).1, ?_, ?_⟩
  · intro t v now w hpg hlk hst
    rw [update_single_nongroup t v now w hpg]
    exact applyVertex_fresh_started t v now [] hpg hlk hst
  · intro t v now w i hpg hi hstarted
    rw [update_single_nongroup t v now w hpg]
    exact applyVertex_existing_started_vertexes t v now [] i hpg hi hstarted

/-- A concrete started vertex report (used by the C5 witness). -/
def exC5v1 : ClientVertex := { digest := "a", name := "A", started := some 100 }

/-- A repeated report for the same digest (used by the C5 witness). -/
def exC5v2 : ClientVertex :=
  { digest := "a", name := "A", started := some 100, completed := some 200 }

/-- Witness for C5 at a concrete trace: a fresh started vertex lands at
position 0, and a repeated started report for the same digest leaves the
display order unchanged. -/
theorem c5_display_order_stable_witness :
    (Trace.update (newTrace false) { vertexes := [exC5v1] } 1000 80).vertexes = [0] ∧
    (Trace.update (Trace.update (newTrace false) { vertexes := [exC5v1] } 1000 80)
        { vertexes := [exC5v2] } 1001 80).vertexes =
      (Trace.update (newTrace false) { vertexes := [exC5v1] } 1000 80).vertexes := by
  constructor
  · have h := c5_display_order_stable.2.1 (newTrace false) exC5v1 1000 80 rfl
      (by decide) (by decide)
    simpa using h
  · exact c5_display_order_stable.2.2
      (Trace.update (newTrace false) { vertexes := [exC5v1] } 1000 80)
      exC5v2 1001 80 0 rfl (by decide) (by decide)

/-- The hidden flag of a group's vertex (a group never looked up counts as
hidden). -/
def groupHidden (t : Trace) (g : String) : Bool :=
  match lookupA t.groups g with
  | some ge => (arenaGet t ge.vid).hidden
  | none => true

theorem insertA_mem_self {β : Type} (m : List (String × β)) (k : String) (v : β) :
    (k, v) ∈ insertA m k v := by
  induction m with
  | nil => simp [insertA]
  | cons p rest ih =>
    by_cases h : p.1 = k
    · simp [insertA, h]
    · simp [insertA, h, ih]

theorem applyVertex_snd_group (t : Trace) (v : ClientVertex) (now : Int)
    (pg : ProgressGroup) (hpg : v.progressGroup = some pg) :
    (applyVertex now (t, []) v).2 = [pg.id] := by
  unfold applyVertex
  simp only [hpg, List.not_mem_nil, if_false, List.nil_append]

theorem update_single_group (t : Trace) (v : ClientVertex) (now w : Int)
    (pg : ProgressGroup) (hpg : v.progressGroup = some pg) :
    Trace.update t { vertexes := [v] } now w =
      applyGroup now (applyVertex now (t, []) v).1 pg.id := by
  unfold Trace.update
  simp only [List.foldl_cons, List.foldl_nil, applyVertex_snd_group t v now pg hpg]

theorem applyVertex_group_fresh (t : Trace) (v : ClientVertex) (now : Int)
    (ord : List String) (pg : ProgressGroup) (hpg : v.progressGroup = some pg)
    (hg : lookupA t.groups pg.id = none) :
    lookupA (applyVertex now (t, ord) v).1.groups pg.id =
      some { vid := t.arena.length, subVtxs := [(v.digest, v)] } ∧
    (applyVertex now (t, ord) v).1.arena =
      t.arena ++ [{ vtx := some { digest := pg.id, name := pg.name }, hidden := true, termNil := !t.modeConsole }] := by
  unfold applyVertex
  simp only [hpg, applyVertexStartTime_groups, hg, lookupA_insertA_self,
    applyVertexStartTime_arena, applyVertexStartTime_modeConsole]
  refine ⟨?_, ?_⟩ <;> trivial

theorem applyVertex_group_existing (t : Trace) (v : ClientVertex) (now : Int)
    (ord : List String) (pg : ProgressGroup) (ge : GroupEntry)
    (hpg : v.progressGroup = some pg) (hg : lookupA t.groups pg.id = some ge) :
    lookupA (applyVertex now (t, ord) v).1.groups pg.id =
      some { vid := ge.vid, subVtxs := insertA ge.subVtxs v.digest v } ∧
    (applyVertex now (t, ord) v).1.arena = t.arena := by
  unfold applyVertex
  simp only [hpg, applyVertexStartTime_groups, hg, lookupA_insertA_self,
    applyVertexStartTime_arena]
  refine ⟨?_, ?_⟩ <;> trivial

theorem refreshLoop_hidden_false_of_member (a : Bool) :
    ∀ (subs : List (String × ClientVertex)) (st : RefreshState) (d : String)
      (sv : ClientVertex), (d, sv) ∈ subs → sv.started.isSome →
      (sv.progressGroup.getD zeroPG).weak = false →
      (refreshLoop a st subs).hidden = false := by
  intro subs
  induction subs with
  | nil => intro st d sv hmem; simp at hmem
  | cons p rest ih =>
    intro st d sv hmem hst hweak
    rcases List.mem_cons.mp hmem with heq | hmem'
    · obtain ⟨stt, hstv⟩ := Option.isSome_iff_exists.mp hst
      subst heq
      unfold refreshLoop
      apply refreshLoop_hidden_mono
      simp only [hstv]
      split <;> simp [hweak]
    · unfold refreshLoop
      exact ih _ d sv hmem' hst hweak

theorem refreshVertex_hidden_false_of_member (pv : PVertex)
    (subs : List (String × ClientVertex)) (d : String) (sv : ClientVertex)
    (hmem : (d, sv) ∈ subs) (hst : sv.started.isSome)
    (hweak : (sv.progressGroup.getD zeroPG).weak = false) :
    (refreshVertex pv subs).pv.hidden = false := by
  unfold refreshVertex
  exact refreshLoop_hidden_false_of_member _ subs _ d sv hmem hst hweak

theorem arenaGet_set_updates (t : Trace) (u : List Digest) (j : Nat) :
    arenaGet { t with updates := u } j = arenaGet t j := rfl

theorem arenaGet_set_vertexes (t : Trace) (lv : List Nat) (j : Nat) :
    arenaGet { t with vertexes := lv } j = arenaGet t j := rfl

theorem arenaGet_set_localTimeDiff (t : Trace) (x : Int) (j : Nat) :
    arenaGet { t with localTimeDiff := x } j = arenaGet t j := rfl

theorem applyGroupTail_hidden (gid : String) (vid : Nat) (out : RefreshOut) (t : Trace)
    (j : Nat) :
    (arenaGet (applyGroupTail gid vid out t) j).hidden = (arenaGet t j).hidden := by
  unfold applyGroupTail
  split
  · rfl
  · simp only []
    rw [arenaGet_modifyVtx _ _ _ _ PVertex.hidden]
    · split
      · rw [arenaGet_set_updates]
        rw [arenaGet_modifyVtx _ _ _ _ PVertex.hidden]
        · split
          · rw [arenaGet_set_vertexes]
          · rfl
        · intro pv
          rfl
      · split
        · rw [arenaGet_set_vertexes]
        · rfl
    · intro pv
      rfl

theorem applyGroupTail_groups (gid : String) (vid : Nat) (out : RefreshOut) (t : Trace) :
    (applyGroupTail gid vid out t).groups = t.groups := by
  unfold applyGroupTail
  split
  · rfl
  · split <;> split <;> rfl

theorem applyGroup_groups (now : Int) (t : Trace) (gid : String) :
    (applyGroup now t gid).groups = t.groups := by
  unfold applyGroup
  split
  · rfl
  · rw [applyGroupTail_groups]
    split <;> rfl

theorem applyGroup_hidden_in_range (now : Int) (t : Trace) (gid : String)
    (ge : GroupEntry) (hge : lookupA t.groups gid = some ge)
    (hrange : ge.vid < t.arena.length) :
    (arenaGet (applyGroup now t gid) ge.vid).hidden =
      (refreshVertex (arenaGet t ge.vid) ge.subVtxs).pv.hidden := by
  unfold applyGroup
  rw [hge]
  simp only []
  rw [applyGroupTail_hidden]
  split
  · rw [arenaGet_set_localTimeDiff, arenaGet_modifyVtx_self _ _ _ hrange]
  · rw [arenaGet_modifyVtx_self _ _ _ hrange]

theorem applyGroup_hidden_false (now : Int) (t : Trace) (gid : String)
    (ge : GroupEntry) (hge : lookupA t.groups gid = some ge)
    (hout : (refreshVertex (arenaGet t ge.vid) ge.subVtxs).pv.hidden = false) :
    (arenaGet (applyGroup now t gid) ge.vid).hidden = false := by
  by_cases hrange : ge.vid < t.arena.length
  · rw [applyGroup_hidden_in_range now t gid ge hge hrange]
    exact hout
  · unfold applyGroup
    rw [hge]
    simp only []
    rw [applyGroupTail_hidden]
    have hgd : (arenaGet (modifyVtx t ge.vid
        fun _ => (refreshVertex (arenaGet t ge.vid) ge.subVtxs).pv) ge.vid).hidden
        = false := by
      rw [arenaGet, modifyVtx]
      rw [listModify_oob _ _ _ (by omega)]
      rw [List.getD_eq_default _ _ (by show t.arena.length ≤ ge.vid; omega)]
    split
    · rw [arenaGet_set_localTimeDiff]
      exact hgd
    · exact hgd

theorem getD_concat_self {α : Type} (l : List α) (x d : α) :
    (l ++ [x]).getD l.length d = x := by
  induction l with
  | nil => rfl
  | cons a rest ih => simp [ih]

theorem groups_set_vertexes (t : Trace) (lv : List Nat) :
    ({ t with vertexes := lv } : Trace).groups = t.groups := rfl

theorem groups_set_localTimeDiff (t : Trace) (x : Int) :
    ({ t with localTimeDiff := x } : Trace).groups = t.groups := rfl

theorem groups_set_updates (t : Trace) (u : List Digest) :
    ({ t with updates := u } : Trace).groups = t.groups := rfl

theorem groups_set_arena_byDigest (t : Trace) (a : List PVertex)
    (bd : List (String × Nat)) :
    ({ t with arena := a, byDigest := bd } : Trace).groups = t.groups := rfl

theorem applyVertex_groups_nongroup (now : Int) (acc : Trace × List String)
    (v : ClientVertex) (hpg : v.progressGroup = none) :
    (applyVertex now acc v).1.groups = acc.1.groups := by
  obtain ⟨t, ord⟩ := acc
  unfold applyVertex
  simp only [hpg]
  rcases hv : v.started with _ | st <;>
    rcases hp : lookupA (applyVertexStartTime t v).byDigest v.digest with _ | pid <;>
    simp [hv, hp, apply_ite Trace.groups, modifyVtx_groups, triggerVertexEvent_groups,
      groups_set_vertexes, groups_set_localTimeDiff, groups_set_arena_byDigest,
      applyVertexStartTime_groups]

theorem applyVertex_groups_ne (now : Int) (acc : Trace × List String)
    (v : ClientVertex) (pg : ProgressGroup) (g : String)
    (hpg : v.progressGroup = some pg) (hne : pg.id ≠ g) :
    lookupA (applyVertex now acc v).1.groups g = lookupA acc.1.groups g := by
  obtain ⟨t, ord⟩ := acc
  unfold applyVertex
  simp only [hpg, applyVertexStartTime_groups]
  rcases hl : lookupA t.groups pg.id with _ | ge0
  · simp only [applyVertexStartTime_groups, hl, lookupA_insertA_self,
      lookupA_insertA_ne _ _ _ _ hne]
  · simp only [applyVertexStartTime_groups, hl, lookupA_insertA_ne _ _ _ _ hne]

theorem applyVertex_groups_vid (now : Int) (acc : Trace × List String)
    (v : ClientVertex) (g : String) (ge : GroupEntry)
    (hg : lookupA acc.1.groups g = some ge) :
    ∃ sub, lookupA (applyVertex now acc v).1.groups g =
      some { vid := ge.vid, subVtxs := sub } := by
  rcases hpg : v.progressGroup with _ | pg
  · refine ⟨ge.subVtxs, ?_⟩
    rw [applyVertex_groups_nongroup now acc v hpg]
    exact hg
  · by_cases hgid : pg.id = g
    · subst hgid
      obtain ⟨hgl, -⟩ :=
        applyVertex_group_existing acc.1 v now acc.2 pg ge hpg hg
      exact ⟨_, hgl⟩
    · refine ⟨ge.subVtxs, ?_⟩
      rw [applyVertex_groups_ne now acc v pg g hpg hgid]
      exact hg

theorem foldl_applyVertex_groups_vid (now : Int) (vs : List ClientVertex) :
    ∀ (acc : Trace × List String) (g : String) (ge : GroupEntry),
      lookupA acc.1.groups g = some ge →
      ∃ sub, lookupA (vs.foldl (applyVertex now) acc).1.groups g =
        some { vid := ge.vid, subVtxs := sub } := by
  induction vs with
  | nil => exact fun acc g ge hg => ⟨ge.subVtxs, hg⟩
  | cons v rest ih =>
    intro acc g ge hg
    obtain ⟨sub, h1⟩ := applyVertex_groups_vid now acc v g ge hg
    exact ih (applyVertex now acc v) g { vid := ge.vid, subVtxs := sub } h1

theorem applyStatus_groups (t : Trace) (s : VertexStatus) :
    (applyStatus t s).groups = t.groups := by
  unfold applyStatus
  split
  · rfl
  · simp only []
    rw [groups_set_updates, modifyVtx_groups]
    simp only [apply_ite Trace.groups, modifyVtx_groups, ite_self]
    split <;> rfl

theorem applyWarning_groups (t : Trace) (w : VertexWarning) :
    (applyWarning t w).groups = t.groups := by
  unfold applyWarning
  split <;> rfl

theorem applyLog_groups (t : Trace) (l : VertexLog) :
    (applyLog t l).groups = t.groups := by
  unfold applyLog
  split <;> rfl

theorem foldl_groups {β : Type} (f : Trace → β → Trace)
    (hf : ∀ t b, (f t b).groups = t.groups) :
    ∀ (l : List β) (t : Trace), (List.foldl f t l).groups = t.groups := by
  intro l
  induction l with
  | nil => exact fun t => rfl
  | cons b rest ih =>
    intro t
    rw [List.foldl_cons, ih, hf]

theorem foldl_applyGroup_groups (now : Int) :
    ∀ (gs : List String) (t : Trace),
      (List.foldl (applyGroup now) t gs).groups = t.groups :=
  foldl_groups (applyGroup now) (applyGroup_groups now)

theorem update_groups_vid (t : Trace) (s : SolveStatus) (now w : Int)
    (g : String) (ge : GroupEntry) (hg : lookupA t.groups g = some ge) :
    ∃ sub, lookupA (Trace.update t s now w).groups g =
      some { vid := ge.vid, subVtxs := sub } := by
  unfold Trace.update
  simp only []
  obtain ⟨sub, h1⟩ := foldl_applyVertex_groups_vid now s.vertexes (t, []) g ge hg
  refine ⟨sub, ?_⟩
  rw [foldl_groups applyLog applyLog_groups, foldl_groups applyWarning applyWarning_groups,
    foldl_groups applyStatus applyStatus_groups, foldl_applyGroup_groups]
  exact h1

theorem refreshVertex_hidden_benign (pv : PVertex) (d : String) (v : ClientVertex)
    (hh : pv.hidden = true) (herr : (pv.vtx.getD zeroCV).error = "")
    (hvs : v.started = none) (hve : v.error = "") :
    (refreshVertex pv [(d, v)]).pv.hidden = true := by
  unfold refreshVertex
  simp only [refreshLoop, hvs, hve]
  simp only [herr]
  simp [hh]

/-- **C7**: a progress group is created hidden, becomes revealed the first
time any non-weak member starts, and once revealed never re-hides under any
subsequent `Update`.  First conjunct: a batch that creates a group through a
member that has not started (and carries no error) leaves the group hidden.
Second conjunct: a batch carrying a started member of a non-weak group leaves
the group revealed, whether the group is new or existing.  Third conjunct:
once the group vertex is revealed, an arbitrary later batch leaves it
revealed. -/
theorem c7_group_visibility :
    (∀ (t : Trace) (v : ClientVertex) (now w : Int) (pg : ProgressGroup),
      v.progressGroup = some pg → lookupA t.groups pg.id = none →
      v.started = none → v.error = "" →
      groupHidden (Trace.update t { vertexes := [v] } now w) pg.id = true) ∧
    (∀ (t : Trace) (v : ClientVertex) (now w : Int) (pg : ProgressGroup),
      v.progressGroup = some pg → v.started.isSome → pg.weak = false →
      groupHidden (Trace.update t { vertexes := [v] } now w) pg.id = false) ∧
    (∀ (t : Trace) (s : SolveStatus) (now w : Int) (g : String) (ge : GroupEntry),
      lookupA t.groups g = some ge → ge.vid < t.arena.length →
      (arenaGet t ge.vid).hidden = false →
      groupHidden (Trace.update t s now w) g = false) := by
  refine ⟨?_, ?_, ?_⟩
  · intro t v now w pg hpg hgl0 hvs hve
    rw [update_single_group t v now w pg hpg]
    obtain ⟨hgl, hga⟩ := applyVertex_group_fresh t v now [] pg hpg hgl0
    unfold groupHidden
    rw [applyGroup_groups, hgl]
    simp only []
    have hrange : t.arena.length < (applyVertex now (t, []) v).1.arena.length := by
      rw [hga]
      simp
    rw [applyGroup_hidden_in_range now (applyVertex now (t, []) v).1 pg.id
      { vid := t.arena.length, subVtxs := [(v.digest, v)] } hgl hrange]
    have hget : arenaGet (applyVertex now (t, []) v).1 t.arena.length = { vtx := some { digest := pg.id, name := pg.name }, hidden := true, termNil := !t.modeConsole } := by
      rw [arenaGet, hga, getD_concat_self]
    simp only []
    rw [hget]
    exact refreshVertex_hidden_benign _ v.digest v rfl rfl hvs hve
  · intro t v now w pg hpg hst hweak
    rw [update_single_group t v now w pg hpg]
    have hweak' : (v.progressGroup.getD zeroPG).weak = false := by
      rw [hpg]
      exact hweak
    rcases hgl0 : lookupA t.groups pg.id with _ | ge0
    · obtain ⟨hgl, hga⟩ := applyVertex_group_fresh t v now [] pg hpg hgl0
      unfold groupHidden
      rw [applyGroup_groups, hgl]
      simp only []
      refine applyGroup_hidden_false now _ pg.id _ hgl ?_
      refine refreshVertex_hidden_false_of_member _ _ v.digest v ?_ hst hweak'
      simp
    · obtain ⟨hgl, hga⟩ := applyVertex_group_existing t v now [] pg ge0 hpg hgl0
      unfold groupHidden
      rw [applyGroup_groups, hgl]
      simp only []
      refine applyGroup_hidden_false now _ pg.id { vid := ge0.vid, subVtxs := insertA ge0.subVtxs v.digest v } hgl ?_
      refine refreshVertex_hidden_false_of_member _ _ v.digest v ?_ hst hweak'
      exact insertA_mem_self _ _ _
  · intro t s now w g ge hg hvid hh
    obtain ⟨sub, hg'⟩ := update_groups_vid t s now w g ge hg
    unfold groupHidden
    rw [hg']
    simp only []
    exact (RR_update t s now w).2.2 ge.vid hvid hh

def exC7pg : ProgressGroup := { id := "g", name := "G", weak := false }

def exC7benign : ClientVertex := { digest := "m", name := "M", progressGroup := some exC7pg }

def exC7started : ClientVertex :=
  { digest := "m", name := "M", started := some 100, progressGroup := some exC7pg }

def exC7t2 : Trace := Trace.update (newTrace false) { vertexes := [exC7started] } 5 80

def exC7cached : ClientVertex :=
  { digest := "m", name := "M", started := some 100, completed := some 200, cached := true, progressGroup := some exC7pg }

theorem c7_group_visibility_witness :
    groupHidden (Trace.update (newTrace false) { vertexes := [exC7benign] } 5 80) "g" = true ∧
    groupHidden (Trace.update (newTrace false) { vertexes := [exC7started] } 5 80) "g" = false ∧
    groupHidden (Trace.update exC7t2 { vertexes := [exC7cached] } 9 80) "g" = false := by
  refine ⟨?_, ?_, ?_⟩
  · exact c7_group_visibility.1 (newTrace false) exC7benign 5 80 exC7pg rfl rfl rfl rfl
  · exact c7_group_visibility.2.1 (newTrace false) exC7started 5 80 exC7pg rfl rfl rfl
  · exact c7_group_visibility.2.2 exC7t2 { vertexes := [exC7cached] } 9 80 "g"
      { vid := 0, subVtxs := [("m", exC7started)] } (by decide) (by decide) (by decide)

/-- Spec-vocabulary AND of all member `cached` flags (Go folds `Cached` over
the members with `&&`). -/
def allCached : List (String × ClientVertex) → Bool
  | [] => true
  | (_, sv) :: rest => sv.cached && allCached rest

/-- The first non-empty string of a list (empty if none): the group error is
the first non-empty error among the previous group error followed by the
member errors in member order. -/
def firstNonEmpty : List String → String
  | [] => ""
  | e :: rest => if e = "" then firstNonEmpty rest else e

/-- Every started member is weak: a started non-weak member un-hides the
group. -/
def allStartedWeak : List (String × ClientVertex) → Bool
  | [] => true
  | (_, sv) :: rest =>
    (match sv.started with
     | some _ => (sv.progressGroup.getD zeroPG).weak
     | none => true) && allStartedWeak rest

/-- A member is visited while a non-empty error is already recorded: only
then does the error path of Go `vertexGroup.refresh` un-hide the group.  The
member that first reports the error does not itself trigger the un-hide. -/
def unhideErr (old : String) : List (String × ClientVertex) → Bool
  | [] => false
  | (_, sv) :: rest => if old = "" then unhideErr sv.error rest else true

theorem refreshLoop_cached_eq :
    ∀ (subs : List (String × ClientVertex)) (a : Bool) (st : RefreshState),
      (refreshLoop a st subs).cached = (st.cached && allCached subs) := by
  intro subs
  induction subs with
  | nil =>
    intro a st
    simp [refreshLoop, allCached]
  | cons p rest ih =>
    intro a st
    obtain ⟨d, sv⟩ := p
    simp only [refreshLoop]
    rcases hs : sv.started with _ | stt <;> by_cases he : st.error = "" <;>
      simp [hs, he, ih, allCached, Bool.and_assoc]

theorem refreshLoop_error_eq :
    ∀ (subs : List (String × ClientVertex)) (a : Bool) (st : RefreshState),
      (refreshLoop a st subs).error =
        firstNonEmpty (st.error :: subs.map fun p => p.2.error) := by
  intro subs
  induction subs with
  | nil =>
    intro a st
    by_cases he : st.error = "" <;> simp [refreshLoop, firstNonEmpty, he]
  | cons p rest ih =>
    intro a st
    obtain ⟨d, sv⟩ := p
    simp only [refreshLoop]
    rcases hs : sv.started with _ | stt <;> by_cases he : st.error = "" <;>
      simp [hs, he, ih, firstNonEmpty]

theorem refreshLoop_hidden_eq :
    ∀ (subs : List (String × ClientVertex)) (a : Bool) (st : RefreshState),
      (refreshLoop a st subs).hidden =
        (st.hidden && allStartedWeak subs && !unhideErr st.error subs) := by
  intro subs
  induction subs with
  | nil =>
    intro a st
    simp [refreshLoop, allStartedWeak, unhideErr]
  | cons p rest ih =>
    intro a st
    obtain ⟨d, sv⟩ := p
    simp only [refreshLoop]
    rcases hs : sv.started with _ | stt <;> by_cases he : st.error = "" <;>
      simp [hs, he, ih, allStartedWeak, unhideErr, Bool.and_assoc]

/-- **C6** (amended): after a refresh of a progress group over its member
map, the group vertex's `cached` flag is the AND of all member `cached`
flags; its `error` is the first non-empty string among the group's previous
error followed by the member errors in member order (so an error, once
recorded, persists over later member errors); and the group is hidden after
the refresh iff it was hidden before, no started member is non-weak, and no
member was visited while an error was already recorded — in particular the
member that first reports an error does not itself un-hide the group. -/
theorem c6_group_refresh_amended :
    ∀ (pv : PVertex) (subs : List (String × ClientVertex)),
      ((refreshVertex pv subs).pv.vtx.getD zeroCV).cached = allCached subs ∧
      ((refreshVertex pv subs).pv.vtx.getD zeroCV).error =
        firstNonEmpty ((pv.vtx.getD zeroCV).error :: subs.map fun p => p.2.error) ∧
      (refreshVertex pv subs).pv.hidden =
        (pv.hidden && allStartedWeak subs &&
          !unhideErr ((pv.vtx.getD zeroCV).error) subs) := by
  intro pv subs
  unfold refreshVertex
  simp only [Option.getD_some]
  refine ⟨?_, ?_, ?_⟩
  · rw [refreshLoop_cached_eq]
    simp
  · rw [refreshLoop_error_eq]
  · rw [refreshLoop_hidden_eq]

def exC6pg : ProgressGroup := { id := "g", name := "G", weak := false }

def exC6err : ClientVertex :=
  { digest := "m", name := "M", error := "boom", progressGroup := some exC6pg }

/-- **C6** (counterexample): a batch in which a group member reports the
error "boom" (without starting) records the error on the group vertex but
leaves the group hidden, contradicting the claim that the group becomes
un-hidden once any member error appears. -/
theorem c6_group_unhide_counterexample :
    groupHidden (Trace.update (newTrace false) { vertexes := [exC6err] } 5 80) "g" = true ∧
    ((arenaGet (Trace.update (newTrace false) { vertexes := [exC6err] } 5 80) 0).vtx.getD
      zeroCV).error = "boom" := by
  decide

theorem modifyVtx_arena_length (t : Trace) (i : Nat) (f : PVertex → PVertex) :
    (modifyVtx t i f).arena.length = t.arena.length := by
  simp [modifyVtx, listModify_length]

theorem triggerVertexEvent_none (t : Trace) (i : Nat) (v : ClientVertex)
    (h : v.started = none) : triggerVertexEvent t i v = t := by
  unfold triggerVertexEvent
  simp [h]

theorem applyVertex_skip_arenaGet (t : Trace) (v : ClientVertex) (now : Int)
    (ord : List String) (i : Nat) {α : Type} (P : PVertex → α)
    (hpg : v.progressGroup = none) (hi : lookupA t.byDigest v.digest = some i)
    (hstarted : isStartedPV (arenaGet t i) = true) (hvs : v.started = none)
    (hP : ∀ pv b, P { pv with jobCached := b } = P pv) :
    P (arenaGet (applyVertex now (t, ord) v).1 i) = P (arenaGet t i) := by
  have hst0 : isStartedPV (arenaGet (applyVertexStartTime t v) i) = true := by
    rw [arenaGet_applyVertexStartTime]
    exact hstarted
  unfold applyVertex
  simp only [hpg, applyVertexStartTime_byDigest, hi, Option.getD_some, hvs,
    triggerVertexEvent_none _ _ _ hvs, hst0, Option.isSome_some, Option.isSome_none,
    Option.isNone_none, Bool.true_and, Bool.and_true, Bool.false_and, Bool.not_true,
    Bool.false_eq_true, if_false, if_true]
  rw [arenaGet_modifyVtx _ _ _ _ P]
  · rw [arenaGet_applyVertexStartTime]
  · intro pv
    exact hP pv false

theorem applyVertex_assign_vtx (t : Trace) (v : ClientVertex) (now : Int)
    (ord : List String) (i : Nat) (stt : Int)
    (hpg : v.progressGroup = none) (hi : lookupA t.byDigest v.digest = some i)
    (hrange : i < t.arena.length) (hvs : v.started = some stt) :
    (arenaGet (applyVertex now (t, ord) v).1 i).vtx = some v := by
  unfold applyVertex
  simp only [hpg, applyVertexStartTime_byDigest, hi, Option.getD_some, hvs,
    Option.isSome_some, Option.isNone_some, Bool.and_false, Bool.true_and,
    Bool.false_eq_true, if_false]
  rw [arenaGet_modifyVtx _ _ _ _ PVertex.vtx]
  · rw [arenaGet_modifyVtx _ _ _ _ PVertex.vtx]
    · split
      · rw [arenaGet_modifyVtx_self]
        simp [apply_ite Trace.arena, apply_ite List.length,
          triggerVertexEvent_arena_length, applyVertexStartTime_arena, hrange]
      · rw [arenaGet_modifyVtx_self]
        simp [triggerVertexEvent_arena_length, applyVertexStartTime_arena, hrange]
    · intro pv
      rfl
  · intro pv
    rfl

theorem applyVertex_assign_intervals (t : Trace) (v : ClientVertex) (now : Int)
    (ord : List String) (i : Nat) (stt : Int)
    (hpg : v.progressGroup = none) (hi : lookupA t.byDigest v.digest = some i)
    (hrange : i < t.arena.length) (hvs : v.started = some stt) :
    (arenaGet (applyVertex now (t, ord) v).1 i).intervals =
      insertI (arenaGet t i).intervals stt { start := some stt, stop := v.completed } := by
  unfold applyVertex
  simp only [hpg, applyVertexStartTime_byDigest, hi, Option.getD_some, hvs,
    Option.isSome_some, Option.isNone_some, Bool.and_false, Bool.true_and,
    Bool.false_eq_true, if_false]
  rw [arenaGet_modifyVtx _ _ _ _ PVertex.intervals]
  · rw [arenaGet_modifyVtx_self]
    · simp only []
      rw [arenaGet_modifyVtx _ _ _ _ PVertex.intervals]
      · split
        · rw [arenaGet_set_vertexes]
          split
          · rw [arenaGet_set_localTimeDiff,
              triggerVertexEvent_arenaGet _ _ _ _ PVertex.intervals (fun pv c p => rfl),
              arenaGet_applyVertexStartTime]
          · rw [triggerVertexEvent_arenaGet _ _ _ _ PVertex.intervals (fun pv c p => rfl),
              arenaGet_applyVertexStartTime]
        · rw [triggerVertexEvent_arenaGet _ _ _ _ PVertex.intervals (fun pv c p => rfl),
            arenaGet_applyVertexStartTime]
      · intro pv
        rfl
    · rw [modifyVtx_arena_length]
      split
      · simp [apply_ite Trace.arena, apply_ite List.length,
          triggerVertexEvent_arena_length, applyVertexStartTime_arena, hrange]
      · simp [triggerVertexEvent_arena_length, applyVertexStartTime_arena, hrange]
  · intro pv
    rfl

/-- **C8** (amended): message handling for a known ungrouped vertex is
last-write-wins at message granularity, not per field.  First conjunct: an
update with a non-null started time replaces the stored snapshot wholesale
and overwrites the interval keyed by that started time with
`(started, completed)` from the new message — so a later message with the
same started time and a null completed rewinds a non-null completion.
Second conjunct: an update with a null started time arriving at a started
vertex is skipped entirely — snapshot and intervals are untouched and the
vertex stays started, so a started time is never cleared by a later null. -/
theorem c8_lww_amended :
    (∀ (t : Trace) (v : ClientVertex) (now w : Int) (i : Nat) (stt : Int),
      v.progressGroup = none → lookupA t.byDigest v.digest = some i →
      i < t.arena.length → v.started = some stt →
      (arenaGet (Trace.update t { vertexes := [v] } now w) i).vtx = some v ∧
      (arenaGet (Trace.update t { vertexes := [v] } now w) i).intervals =
        insertI (arenaGet t i).intervals stt { start := some stt, stop := v.completed }) ∧
    (∀ (t : Trace) (v : ClientVertex) (now w : Int) (i : Nat),
      v.progressGroup = none → lookupA t.byDigest v.digest = some i →
      isStartedPV (arenaGet t i) = true → v.started = none →
      (arenaGet (Trace.update t { vertexes := [v] } now w) i).vtx = (arenaGet t i).vtx ∧
      (arenaGet (Trace.update t { vertexes := [v] } now w) i).intervals =
        (arenaGet t i).intervals ∧
      isStartedPV (arenaGet (Trace.update t { vertexes := [v] } now w) i) = true) := by
  constructor
  · intro t v now w i stt hpg hi hrange hvs
    rw [update_single_nongroup t v now w hpg]
    exact ⟨applyVertex_assign_vtx t v now [] i stt hpg hi hrange hvs,
      applyVertex_assign_intervals t v now [] i stt hpg hi hrange hvs⟩
  · intro t v now w i hpg hi hstarted hvs
    rw [update_single_nongroup t v now w hpg]
    refine ⟨applyVertex_skip_arenaGet t v now [] i PVertex.vtx hpg hi hstarted hvs
        (fun pv b => rfl),
      applyVertex_skip_arenaGet t v now [] i PVertex.intervals hpg hi hstarted hvs
        (fun pv b => rfl), ?_⟩
    rw [applyVertex_skip_arenaGet t v now [] i isStartedPV hpg hi hstarted hvs
      (fun pv b => rfl)]
    exact hstarted

def exC8v1 : ClientVertex :=
  { digest := "d", name := "D", started := some 100, completed := some 200 }

def exC8v2 : ClientVertex := { digest := "d", name := "D", started := some 100 }

def exC8null : ClientVertex := { digest := "d", name := "D" }

def exC8t1 : Trace := Trace.update (newTrace false) { vertexes := [exC8v1] } 5 80

theorem c8_lww_amended_witness :
    ((arenaGet (Trace.update exC8t1 { vertexes := [exC8v2] } 9 80) 0).vtx = some exC8v2 ∧
      (arenaGet (Trace.update exC8t1 { vertexes := [exC8v2] } 9 80) 0).intervals =
        insertI (arenaGet exC8t1 0).intervals 100 { start := some 100, stop := none }) ∧
    ((arenaGet (Trace.update exC8t1 { vertexes := [exC8null] } 9 80) 0).vtx =
        (arenaGet exC8t1 0).vtx ∧
      (arenaGet (Trace.update exC8t1 { vertexes := [exC8null] } 9 80) 0).intervals =
        (arenaGet exC8t1 0).intervals ∧
      isStartedPV (arenaGet (Trace.update exC8t1 { vertexes := [exC8null] } 9 80) 0) = true) := by
  constructor
  · exact c8_lww_amended.1 exC8t1 exC8v2 9 80 0 100 rfl (by decide) (by decide) rfl
  · exact c8_lww_amended.2 exC8t1 exC8null 9 80 0 rfl (by decide) (by decide) rfl

/-- **C8** (counterexample): the completed timestamp is not monotone.  A
vertex reported with started 100 and completed 200, then again with started
100 and a null completed, ends up not completed: the second message rewinds
the non-null completion, in both the stored snapshot and the interval map. -/
theorem c8_completed_rewind_counterexample :
    isCompletedPV (arenaGet exC8t1 0) = true ∧
    ((arenaGet exC8t1 0).vtx.getD zeroCV).completed = some 200 ∧
    isCompletedPV (arenaGet (Trace.update exC8t1 { vertexes := [exC8v2] } 9 80) 0) = false ∧
    ((arenaGet (Trace.update exC8t1 { vertexes := [exC8v2] } 9 80) 0).vtx.getD
      zeroCV).completed = none := by
  decide

theorem applyLog_byDigest (t : Trace) (l : VertexLog) :
    (applyLog t l).byDigest = t.byDigest := by
  unfold applyLog
  split <;> rfl

theorem applyLog_arena_length (t : Trace) (l : VertexLog) :
    (applyLog t l).arena.length = t.arena.length := by
  unfold applyLog
  split
  · rfl
  · simp [modifyVtx_arena_length]

theorem update_single_log (t : Trace) (l : VertexLog) (now w : Int) :
    Trace.update t { logs := [l] } now w = applyLog t l := rfl

theorem applyLog_at (t : Trace) (l : VertexLog) (i : Nat)
    (hi : lookupA t.byDigest l.vtx = some i) (hrange : i < t.arena.length) :
    (arenaGet (applyLog t l) i).logs =
      (processLogChunk (logStamp (arenaGet t i) l.timestamp)
        ((arenaGet t i).logs, (arenaGet t i).logsOpen) l.data).1 ∧
    (arenaGet (applyLog t l) i).logsOpen =
      (processLogChunk (logStamp (arenaGet t i) l.timestamp)
        ((arenaGet t i).logs, (arenaGet t i).logsOpen) l.data).2 := by
  unfold applyLog
  simp only [hi]
  rw [arenaGet_set_updates, arenaGet_modifyVtx_self, arenaGet_modifyVtx_self,
    arenaGet_modifyVtx_self]
  · constructor <;> (split <;> rfl)
  · exact hrange
  · simp [modifyVtx_arena_length, hrange]
  · simp [modifyVtx_arena_length, hrange]

/-- A sequence of `Update` calls each carrying one log chunk for the digest
`d`. -/
def updateLogChunks (t0 : Trace) (d : String) (now w : Int)
    (chunks : List (List Char)) : Trace :=
  chunks.foldl
    (fun t c => Trace.update t { logs := [{ vtx := d, data := c, timestamp := now }] } now w) t0

theorem updateLogChunks_logsMatch :
    ∀ (chunks : List (List Char)) (t : Trace) (d : String) (i : Nat) (now w : Int)
      (s : List Char),
      lookupA t.byDigest d = some i → i < t.arena.length →
      LogsMatch ((arenaGet t i).logs, (arenaGet t i).logsOpen) s →
      (∀ c ∈ chunks, c ≠ []) →
      LogsMatch ((arenaGet (updateLogChunks t d now w chunks) i).logs,
        (arenaGet (updateLogChunks t d now w chunks) i).logsOpen) (s ++ chunks.flatten) := by
  intro chunks
  induction chunks with
  | nil =>
    intro t d i now w s hlk hr hm hne
    simpa [updateLogChunks] using hm
  | cons c rest ih =>
    intro t d i now w s hlk hr hm hne
    have hstep := logsMatch_step hm (hne c (by simp)) (logStamp_noSpace (arenaGet t i) now)
    obtain ⟨hlogs, hopen⟩ :=
      applyLog_at t { vtx := d, data := c, timestamp := now } i hlk hr
    have hpair : ((arenaGet (applyLog t { vtx := d, data := c, timestamp := now }) i).logs,
        (arenaGet (applyLog t { vtx := d, data := c, timestamp := now }) i).logsOpen) =
        processLogChunk (logStamp (arenaGet t i) now)
          ((arenaGet t i).logs, (arenaGet t i).logsOpen) c := by
      rw [hlogs, hopen]
    have hm2 : LogsMatch
        ((arenaGet (applyLog t { vtx := d, data := c, timestamp := now }) i).logs,
          (arenaGet (applyLog t { vtx := d, data := c, timestamp := now }) i).logsOpen)
        (s ++ c) := by
      rw [hpair]
      exact hstep
    have hlk2 : lookupA (applyLog t { vtx := d, data := c, timestamp := now }).byDigest d
        = some i := by
      rw [applyLog_byDigest]
      exact hlk
    have hr2 : i < (applyLog t { vtx := d, data := c, timestamp := now }).arena.length := by
      rw [applyLog_arena_length]
      exact hr
    have hrec := ih (applyLog t { vtx := d, data := c, timestamp := now }) d i now w
      (s ++ c) hlk2 hr2 hm2 (fun q hq => hne q (by simp [hq]))
    simpa [updateLogChunks, update_single_log, List.append_assoc] using hrec

/-- An empty chunk is not a no-op: Go `split` reports an empty chunk as
incomplete (`len(dt) == 0` returns false), so `logsPartial = !complete` sets
the dangling-line flag without adding any content — the next chunk's first
fragment is then fused onto the last stored line even if the stream so far
ended in a newline.  This is why the reassembly theorem hypothesises
non-empty chunks. -/
theorem processLogChunk_empty (stamp : List Char) (logs : List (List Char)) :
    processLogChunk stamp (logs, false) [] = (logs, true) := rfl

/-- **C2** (amended): for a known vertex whose log state is empty, feeding a
sequence of non-empty log chunks through successive `Update` calls stores one
line per newline-separated fragment of the concatenated stream, independent
of the chunk boundaries — but each stored line carries the elapsed-time
stamp and a space in front of the fragment content, so the lines equal the
reassembled stream lines only after stripping the stamp text.  The
dangling-line flag is set exactly when the stream is non-empty and does not
end in a newline.  (An empty chunk is excluded because it is not a no-op:
Go `split` reports an empty chunk as incomplete, so it sets the
dangling-line flag without adding content, and the next chunk's first
fragment would be fused onto the last stored line even after a newline —
see `processLogChunk_empty`.) -/
theorem c2_log_reassembly_amended :
    ∀ (chunks : List (List Char)) (t0 : Trace) (d : String) (i : Nat) (now w : Int),
      lookupA t0.byDigest d = some i → i < t0.arena.length →
      (arenaGet t0 i).logs = [] → (arenaGet t0 i).logsOpen = false →
      (∀ c ∈ chunks, c ≠ []) →
      (arenaGet (updateLogChunks t0 d now w chunks) i).logs.map stripStamp =
        (split chunks.flatten).1 ∧
      (arenaGet (updateLogChunks t0 d now w chunks) i).logsOpen =
        (!chunks.flatten.isEmpty && !endsNl chunks.flatten) := by
  intro chunks t0 d i now w hlk hr hlogs0 hopen0 hne
  have hm0 : LogsMatch ((arenaGet t0 i).logs, (arenaGet t0 i).logsOpen) [] := by
    rw [hlogs0, hopen0]
    exact ⟨rfl, by decide, by simp⟩
  have h := updateLogChunks_logsMatch chunks t0 d i now w [] hlk hr hm0 hne
  obtain ⟨h1, h2, -⟩ := h
  simp only [List.nil_append] at h1 h2
  exact ⟨h1, h2⟩

def exC2base : Trace :=
  Trace.update (newTrace false) { vertexes := [{ digest := "d", name := "D" }] } 5 80

theorem c2_log_reassembly_amended_witness :
    (arenaGet (updateLogChunks exC2base "d" 6 80 ["abc".toList, "def\nghi".toList]) 0).logs.map
      stripStamp = (split ["abc".toList, "def\nghi".toList].flatten).1 ∧
    (arenaGet (updateLogChunks exC2base "d" 6 80 ["abc".toList, "def\nghi".toList]) 0).logsOpen =
      (!(["abc".toList, "def\nghi".toList].flatten.isEmpty) &&
        !endsNl ["abc".toList, "def\nghi".toList].flatten) := by
  exact c2_log_reassembly_amended ["abc".toList, "def\nghi".toList] exC2base "d" 0 6 80
    (by decide) (by decide) (by decide) (by decide) (by decide)

/-- **C2** (counterexample): the stored lines are not the raw reassembled
lines — feeding "abc" then "def\nghi" to a never-started vertex stores
"0.000 abcdef" and "0.000 ghi" (stamp text and a space before each
fragment), not "abcdef" and "ghi". -/
theorem c2_log_stamp_counterexample :
    (arenaGet (updateLogChunks exC2base "d" 6 80 ["abc".toList, "def\nghi".toList]) 0).logs =
      ["0.000 abcdef".toList, "0.000 ghi".toList] ∧
    ¬ (arenaGet (updateLogChunks exC2base "d" 6 80 ["abc".toList, "def\nghi".toList]) 0).logs =
      ["abcdef".toList, "ghi".toList] := by
  decide

theorem errorLogsList_eq (t : Trace) :
    ∀ ids : List Nat, errorLogsList t ids =
      (((ids.map (arenaGet t)).filter reportable).map sectionOf).flatten := by
  intro ids
  induction ids with
  | nil => rfl
  | cons i rest ih =>
    simp only [errorLogsList, List.map_cons, List.filter_cons]
    rcases hrep : reportable (arenaGet t i) <;> simp [hrep, ih]

/-- **C4** (amended): `ErrorLogs` renders exactly the display-order vertices
whose error is non-empty and does not END WITH the cancellation sentinel —
the filter is a suffix test, not an equality test, so any error message
merely suffixed by "context canceled" is also excluded, not only an error
exactly equal to the sentinel.  Each reported vertex contributes its
`------`-delimited section with its name and accumulated log lines. -/
theorem c4_error_logs_amended :
    (∀ t : Trace, Trace.errorLogs t =
      (((t.vertexes.map (arenaGet t)).filter reportable).map sectionOf).flatten) ∧
    (∀ pv : PVertex, (pv.vtx.getD zeroCV).error = canceledSentinel →
      reportable pv = false) ∧
    (∀ pv : PVertex, (pv.vtx.getD zeroCV).error ≠ "" →
      canceledSentinel.toList.isSuffixOf (pv.vtx.getD zeroCV).error.toList = false →
      reportable pv = true) := by
  refine ⟨?_, ?_, ?_⟩
  · intro t
    exact errorLogsList_eq t t.vertexes
  · intro pv h
    simp only [reportable, h]
    decide
  · intro pv h1 h2
    simp [reportable, h1]
    exact h2

def exC4v : ClientVertex :=
  { digest := "d", name := "D", started := some 100, error := "boom: context canceled" }

def exC4t : Trace := Trace.update (newTrace false) { vertexes := [exC4v] } 5 80

theorem c4_error_logs_amended_witness :
    Trace.errorLogs exC4t =
      (((exC4t.vertexes.map (arenaGet exC4t)).filter reportable).map sectionOf).flatten ∧
    reportable { vtx := some { digest := "d", name := "D", error := canceledSentinel } } = false ∧
    reportable { vtx := some { digest := "d", name := "D", error := "boom" } } = true := by
  refine ⟨c4_error_logs_amended.1 exC4t, ?_, ?_⟩
  · exact c4_error_logs_amended.2.1
      { vtx := some { digest := "d", name := "D", error := canceledSentinel } } (by decide)
  · exact c4_error_logs_amended.2.2
      { vtx := some { digest := "d", name := "D", error := "boom" } } (by decide) (by decide)

/-- **C4** (counterexample): a started vertex whose error is
"boom: context canceled" — non-empty and different from the sentinel — is in
the display order, yet `ErrorLogs` reports nothing, because the filter
excludes every error that merely ends with the sentinel. -/
theorem c4_error_logs_counterexample :
    ((arenaGet exC4t 0).vtx.getD zeroCV).error = "boom: context canceled" ∧
    ((arenaGet exC4t 0).vtx.getD zeroCV).error ≠ "" ∧
    ((arenaGet exC4t 0).vtx.getD zeroCV).error ≠ canceledSentinel ∧
    exC4t.vertexes = [0] ∧
    Trace.errorLogs exC4t = [] := by
  decide

/-- Modelled from the spec: the total vertex count excludes grouped and
hidden vertices and counts each progress group's sub-vertices merged into
the single group vertex — the number of distinct non-hidden vertex objects
referenced by the digest table (members of a group all reference the group
vertex, so a group counts once). -/
def specCountTotal (t : Trace) : Int :=
  ((t.byDigest.map fun p => p.2).dedup.filter fun i => !(arenaGet t i).hidden).length

def pgC9 : ProgressGroup := { id := "g", name := "G", weak := false }

def exC9v1 : ClientVertex :=
  { digest := "a", name := "A", started := some 100, progressGroup := some pgC9 }

def exC9v2 : ClientVertex := { digest := "b", name := "B", progressGroup := some pgC9 }

def exC9t : Trace := Trace.update (newTrace false) { vertexes := [exC9v1, exC9v2] } 5 80

/-- **C9**: after a batch creating a two-member progress group with one
started (non-weak) member, the digest table holds three keys — the group id
and both member digests — all referencing the one revealed group vertex,
whose stored snapshot carries no group annotation.  `DisplayInfo` therefore
counts all three keys: `CountTotal` is 3 where the spec's merged count is 1.
The per-key decrement of Go `Trace.DisplayInfo` only fires for keys whose
referenced vertex is annotated with a progress group or hidden, which is
never true of a revealed group vertex, so every member key double-counts the
group. -/
theorem c9_count_total_bug :
    (Trace.displayInfo exC9t).countTotal = 3 ∧
    specCountTotal exC9t = 1 ∧
    exC9t.byDigest = [("g", 0), ("a", 0), ("b", 0)] ∧
    (arenaGet exC9t 0).hidden = false := by
  decide

/-!  ### Terminal row allocation: Go `SetupTerminals` and `wrapHeight`
(config.go lines 605-670).  `Job.Vertex` carries the fields read by the row
allocator; `termUsedHeight` stands for the external `vt100`
`Term.UsedHeight()` value.  -/

structure JobVertex where
  termBytes : Int := 0
  termCount : Int := 0
  termUsedHeight : Int := 0
deriving DecidableEq, Repr

structure Job where
  isCompleted : Bool := false
  name : String := ""
  status : String := ""
  hasError : Bool := false
  isCanceled : Bool := false
  vertex : Option JobVertex := none
  showTerm : Bool := false
deriving DecidableEq, Repr

/-- The candidate filter of Go `SetupTerminals`: a non-nil vertex with
terminal bytes and an incomplete job. -/
def isCandidate (j : Job) : Bool :=
  match j.vertex with
  | some v => decide (0 < v.termBytes) && !j.isCompleted
  | none => false

/-- The sort key of Go `SetupTerminals` (descending). -/
def jobScore (j : Job) : Int :=
  match j.vertex with
  | some v => v.termBytes + v.termCount * 50
  | none => 0

/-- Positions paired with jobs: Go collects job pointers; the model collects
positions so that marking can refer back to the input list. -/
def enumJobs : Nat → List Job → List (Nat × Job)
  | _, [] => []
  | i, jb :: rest => (i, jb) :: enumJobs (i + 1) rest

/-- The grant loop of Go `SetupTerminals`: grant `ShowTerm` to the best
candidates while `numFree > termLimit`, accumulating the used heights of the
granted terminals (`numToHide`). -/
def grantLoop (termLimit : Int) : Int → List (Nat × Job) → List Nat × Int
  | _, [] => ([], 0)
  | numFree, c :: rest =>
    if termLimit < numFree then
      let r := grantLoop termLimit (numFree - termLimit) rest
      (c.1 :: r.1, (match c.2.vertex with | some v => v.termUsedHeight | none => 0) + r.2)
    else ([], 0)

/-- Setting `ShowTerm` on the granted positions (Go mutates the job objects
through the candidate pointers). -/
def markJobs (granted : List Nat) : Nat → List Job → List Job
  | _, [] => []
  | i, jb :: rest =>
    (if i ∈ granted then { jb with showTerm := true } else jb) :: markJobs granted (i + 1) rest

/-- Go `TermHeight = max(termHeightMin, min(termHeightInitial, height-termHeightMin-1))`
with `termHeightMin = termHeightInitial = 6`. -/
def TermHeightOf (height : Int) : Int := max 6 (min 6 (height - 6 - 1))

/-- The rewrap loop of Go `wrapHeight`: keep a row if it is incomplete or the
running counter (started at the number of cut incomplete rows) has run out. -/
def rewrapLoop : Int → List Job → List Job
  | _, [] => []
  | l, jb :: rest =>
    if jb.isCompleted = false ∨ l ≤ 0 then jb :: rewrapLoop (l - 1) rest
    else rewrapLoop (l - 1) rest

/-- Go `wrapHeight`: a negative limit yields no rows at all; otherwise keep
the last `limit` rows, and when incomplete rows were cut, drop one kept
completed row per cut incomplete row (the rewrap loop) and pull back the
last cut incomplete rows into the freed space. -/
def wrapHeight (j : List Job) (limit : Int) : List Job :=
  if limit < 0 then []
  else if limit < (j.length : Int) then
    let k := ((j.length : Int) - limit).toNat
    let wrapped := j.drop k
    let invisible := (j.take k).filter fun jb => !jb.isCompleted
    if 0 < invisible.length then
      let rewrapped := rewrapLoop (invisible.length : Int) wrapped
      let freespace := wrapped.length - rewrapped.length
      invisible.drop (invisible.length - freespace) ++ rewrapped
    else wrapped
  else j

/-- Go `SetupTerminals` (the model sorts candidates with a stable insertion
sort where Go's `sort.Slice` is unstable; only the tie order differs, and no
stated property depends on it). -/
def SetupTerminals (jobs : List Job) (height : Int) (all : Bool) : List Job :=
  let numInUse := (jobs.filter fun j => !j.isCompleted).length
  let candidates := (List.insertionSort (fun p q => jobScore q.2 ≤ jobScore p.2)
    ((enumJobs 0 jobs).filter fun p => isCandidate p.2))
  let numFree := height - 2 - (numInUse : Int)
  let termLimit := TermHeightOf height + 3
  let g := grantLoop termLimit numFree candidates
  let jobs := markJobs g.1 0 jobs
  if !all then wrapHeight jobs (height - 2 - g.2) else jobs

/-- Forget the `ShowTerm` marking (Go mutates it in place on the input
jobs). -/
def eraseShow (j : Job) : Job := { j with showTerm := false }

theorem markJobs_erase (granted : List Nat) :
    ∀ (i : Nat) (jobs : List Job),
      (markJobs granted i jobs).map eraseShow = jobs.map eraseShow := by
  intro i jobs
  induction jobs generalizing i with
  | nil => rfl
  | cons jb rest ih =>
    unfold markJobs
    simp only [List.map_cons, ih]
    split <;> rfl

theorem rewrapLoop_sublist : ∀ (l : Int) (js : List Job),
    (rewrapLoop l js).Sublist js := by
  intro l js
  induction js generalizing l with
  | nil => simp [rewrapLoop]
  | cons jb rest ih =>
    unfold rewrapLoop
    split
    · exact (ih _).cons₂ _
    · exact (ih _).cons _

theorem rewrapLoop_keeps_incomplete : ∀ (l : Int) (js : List Job),
    (js.filter fun jb => !jb.isCompleted).Sublist (rewrapLoop l js) := by
  intro l js
  induction js generalizing l with
  | nil => simp [rewrapLoop]
  | cons jb rest ih =>
    unfold rewrapLoop
    rcases hc : jb.isCompleted
    · rw [if_pos (Or.inl rfl)]
      simp only [List.filter_cons, hc, Bool.not_false, if_true]
      exact (ih _).cons₂ _
    · simp only [List.filter_cons, hc, Bool.not_true, Bool.false_eq_true, if_false]
      split
      · exact (ih _).cons _
      · exact ih _

theorem wrapHeight_sublist (j : List Job) (limit : Int) :
    (wrapHeight j limit).Sublist j := by
  unfold wrapHeight
  split
  · exact List.nil_sublist j
  · split
    · simp only []
      split
      · have h1 : (((j.take (((j.length : Int) - limit).toNat)).filter
            fun jb => !jb.isCompleted).drop
              (((j.take (((j.length : Int) - limit).toNat)).filter
                fun jb => !jb.isCompleted).length -
                ((j.drop (((j.length : Int) - limit).toNat)).length -
                  (rewrapLoop ((((j.take (((j.length : Int) - limit).toNat)).filter
                    fun jb => !jb.isCompleted).length : Int))
                    (j.drop (((j.length : Int) - limit).toNat))).length))).Sublist
            (j.take (((j.length : Int) - limit).toNat)) :=
          (List.drop_sublist _ _).trans (List.filter_sublist _)
        have h2 := rewrapLoop_sublist
          ((((j.take (((j.length : Int) - limit).toNat)).filter
            fun jb => !jb.isCompleted).length : Int))
          (j.drop (((j.length : Int) - limit).toNat))
        have := h1.append h2
        simpa [List.take_append_drop] using this
      · exact List.drop_sublist _ _
    · exact List.Sublist.refl j

theorem wrapHeight_keeps_window_incomplete (j : List Job) (limit : Int)
    (h : 0 ≤ limit) :
    ((j.drop (((j.length : Int) - limit).toNat)).filter
      fun jb => !jb.isCompleted).Sublist (wrapHeight j limit) := by
  unfold wrapHeight
  rw [if_neg (by omega)]
  split
  · simp only []
    split
    · exact (rewrapLoop_keeps_incomplete _ _).trans (List.sublist_append_right _ _)
    · exact List.filter_sublist _
  · have hk : (((j.length : Int) - limit).toNat) = 0 := by omega
    rw [hk]
    simp only [List.drop_zero]
    exact List.filter_sublist j

theorem wrapHeight_all_fit (j : List Job) (limit : Int)
    (h : (j.length : Int) ≤ limit) : wrapHeight j limit = j := by
  unfold wrapHeight
  rw [if_neg (by omega), if_neg (by omega)]

/-- **C3** (amended): the row budget is not incomplete-row-safe in general.
What holds: (1) `SetupTerminals` with `renderAll = false` returns a subset of
the input rows in input order (modulo the `ShowTerm` marking); (2) for a
non-negative limit, `wrapHeight` keeps every incomplete row of the kept
window (the last `limit` rows) — cut incomplete rows are pulled back only
into space freed by dropping kept completed rows, which can be insufficient;
(3) a limit at least the row count keeps everything; (4) `renderAll = true`
never drops a row.  A negative budget (small height) drops every row,
incomplete ones included, and a cut incomplete row stays dropped when the
kept window has no completed row early enough to displace. -/
theorem c3_row_budget_amended :
    (∀ (jobs : List Job) (height : Int),
      ((SetupTerminals jobs height false).map eraseShow).Sublist (jobs.map eraseShow)) ∧
    (∀ (j : List Job) (limit : Int), 0 ≤ limit →
      ((j.drop (((j.length : Int) - limit).toNat)).filter
        fun jb => !jb.isCompleted).Sublist (wrapHeight j limit)) ∧
    (∀ (j : List Job) (limit : Int), (j.length : Int) ≤ limit →
      wrapHeight j limit = j) ∧
    (∀ (jobs : List Job) (height : Int),
      (SetupTerminals jobs height true).map eraseShow = jobs.map eraseShow) := by
  refine ⟨?_, wrapHeight_keeps_window_incomplete, wrapHeight_all_fit, ?_⟩
  · intro jobs height
    unfold SetupTerminals
    simp only [Bool.not_false, if_true]
    refine List.Sublist.trans (List.Sublist.map eraseShow (wrapHeight_sublist _ _)) ?_
    rw [markJobs_erase]
  · intro jobs height
    unfold SetupTerminals
    simp only [Bool.not_true, Bool.false_eq_true, if_false]
    exact markJobs_erase _ _ _

def exC3inc1 : Job := { name := "i1" }

def exC3inc2 : Job := { name := "i2" }

def exC3comp : Job := { name := "c", isCompleted := true }

theorem c3_row_budget_amended_witness :
    ((SetupTerminals [exC3inc1, exC3comp] 3 false).map eraseShow).Sublist
      ([exC3inc1, exC3comp].map eraseShow) ∧
    (([exC3inc1, exC3inc2, exC3comp].drop
      ((([exC3inc1, exC3inc2, exC3comp].length : Int) - 2).toNat)).filter
        fun jb => !jb.isCompleted).Sublist
      (wrapHeight [exC3inc1, exC3inc2, exC3comp] 2) ∧
    wrapHeight [exC3inc1] 5 = [exC3inc1] ∧
    (SetupTerminals [exC3inc1] 7 true).map eraseShow = [exC3inc1].map eraseShow := by
  exact ⟨c3_row_budget_amended.1 [exC3inc1, exC3comp] 3,
    c3_row_budget_amended.2.1 [exC3inc1, exC3inc2, exC3comp] 2 (by decide),
    c3_row_budget_amended.2.2.1 [exC3inc1] 5 (by decide),
    c3_row_budget_amended.2.2.2 [exC3inc1] 7⟩

/-- **C3** (counterexample): `SetupTerminals` with `renderAll = false` does
drop incomplete rows.  With height 0 the budget is negative and the single
incomplete row vanishes.  With three rows `[incomplete, incomplete,
completed]` and budget 2, the first incomplete row is cut and not pulled
back — the rewrap loop reaches the kept completed row only after its counter
has run out — so an incomplete input row is missing from the output while a
completed one is kept. -/
theorem c3_row_budget_counterexample :
    exC3inc1.isCompleted = false ∧
    SetupTerminals [exC3inc1] 0 false = [] ∧
    SetupTerminals [exC3inc1, exC3inc2, exC3comp] 4 false = [exC3inc2, exC3comp] := by
  decide

end Progress
